import Mathlib

set_option maxRecDepth 4000

/-!
Verification of `fix_email_parsers.py`: a pattern-based source rewriting
script.  Each fix routine reads a file, applies a fixed sequence of
`re.sub` calls and literal `str.replace` calls to the in-memory text, and
writes the result back.

Embedding notes.

* All regex patterns in the script consist of fixed literal fragments
  separated by `\s+`.  No pattern contains an unescaped `.`, so the
  `re.DOTALL` flag is irrelevant.  Every literal fragment that follows a
  `\s+` starts with a non-whitespace character, hence the greedy `\s+`
  (with backtracking) matches exactly the maximal run of whitespace: if it
  gave back a character, the following literal would have to start on a
  whitespace character, which it cannot.  We therefore model `\s+` by
  maximal-munch (`List.takeWhile`), which is deterministic.
* `re.sub` scans left to right, replacing non-overlapping matches and
  resuming after each match; `str.replace` has the same semantics for a
  literal pattern.  Both are modelled by one substitution function `subGo`.
* Python processes escape sequences in the *replacement* string of
  `re.sub`: `\1`, `\2` are group references and the two-character sequence
  backslash-`n` is converted to a line feed.  The replacement strings below
  are the processed ones: e.g. the replacement text `text: "\n".to_string(),`
  of the script (where `\n` stands for the characters backslash and `n`)
  actually inserts `text: "` followed by a real line feed.  Where this
  happens it is pointed out in a comment.
* Pattern literals are transcribed from the regex source with `\{` `\}`
  `\(` `\)` `\|` `\.` unescaped to the plain characters and `\\n` decoded
  to the two characters backslash `n`.  Note the pattern quirk
  `\{}: \{}\}` which denotes the literal text `{}: {}}` (with a doubled
  closing brace).
-/

namespace FixEmailParsers

/-- Whitespace test modelling Python's `\s` on the characters that can occur
here (the source files are ASCII); the common ASCII whitespace characters. -/
def isWsChar (c : Char) : Bool :=
  c == ' ' || c == '\t' || c == '\n' || c == '\x0d' || c == '\x0b' || c == '\x0c'

/-- One component of a pattern: a fixed literal fragment, a nonempty
whitespace run (`\s+`), or an optional whitespace run (used only for the
intermediate states of a partially consumed pattern). -/
inductive Chunk where
  | lit (l : List Char)
  | ws
  | wsOpt
deriving DecidableEq, Repr

/-- Deterministic matching of a chunk sequence at the head of a string.
Returns the list of per-chunk matched segments and the rest of the string. -/
def matchChunks : List Chunk → List Char → Option (List (List Char) × List Char)
  | [], s => some ([], s)
  | Chunk.lit l :: ps, s =>
    if l.isPrefixOf s then
      (matchChunks ps (s.drop l.length)).map (fun pr => (l :: pr.1, pr.2))
    else none
  | Chunk.ws :: ps, s =>
    let w := s.takeWhile isWsChar
    if w.length = 0 then none
    else (matchChunks ps (s.drop w.length)).map (fun pr => (w :: pr.1, pr.2))
  | Chunk.wsOpt :: ps, s =>
    let w := s.takeWhile isWsChar
    (matchChunks ps (s.drop w.length)).map (fun pr => (w :: pr.1, pr.2))

/-- A rewrite rule: a structural pattern and a renderer computing the
replacement text from the matched segments. -/
structure Rule where
  pat : List Chunk
  render : List (List Char) → List Char

/-- Leftmost, non-overlapping scan-and-replace with a fuel argument
(`fuel ≥ length of the string` always holds at call sites).  Returns the
rewritten text together with the number of replacements performed. -/
def subGo (r : Rule) : Nat → List Char → List Char × Nat
  | _, [] => ([], 0)
  | 0, s => (s, 0)
  | n + 1, c :: cs =>
    match matchChunks r.pat (c :: cs) with
    | some (segs, rest) =>
      if rest.length ≤ n then
        let pr := subGo r n rest
        (r.render segs ++ pr.1, pr.2 + 1)
      else (c :: cs, 0)
    | none =>
      let pr := subGo r n cs
      (c :: pr.1, pr.2)

/-- Apply one rule to a text: rewritten text and match count. -/
def applyC (r : Rule) (s : List Char) : List Char × Nat :=
  subGo r s.length s

/-- The rewritten text. -/
def applyR (r : Rule) (s : List Char) : List Char :=
  (applyC r s).1

/-- The number of replaced occurrences. -/
def countR (r : Rule) (s : List Char) : Nat :=
  (applyC r s).2

/-- Every rule of the script starts with a nonempty literal fragment. -/
def GoodRule (r : Rule) : Prop :=
  ∃ l ps, r.pat = Chunk.lit l :: ps ∧ l ≠ []

/-- Shorthand: the character list of a string literal. -/
def str (s : String) : List Char :=
  s.data

/-! ### The rules of `fix_mbox`, transcribed from the source

Braces in string literals are written with the `\x7b` / `\x7d` escapes.
In pattern literals `\\n` denotes the two characters backslash `n`
(the escape sequence as it appears in the Rust source being rewritten);
in replacement strings a plain `\n` is a real line feed. -/

/-- First anchor of the `format_email_header` pattern (mbox.rs and msg.rs). -/
def litHdrFn : List Char :=
  str ("fn format_email_header(&self, label: &str, value: &str) -> TextRun \x7b")

def litTextRunBrace : List Char := str ("TextRun \x7b")

/-- `text: format!("{}: {}}\n", label, value),` — the regex `\{}: \{}\}\\n`
denotes `{}: {}}` followed by backslash `n`: a doubled closing brace. -/
def litFmtLabelValue : List Char :=
  str ("text: format!(\"\x7b\x7d: \x7b\x7d\x7d\\n\", label, value),")

def litStyleTextStyle : List Char := str ("style: TextStyle \x7b")

def litBoldHeader : List Char :=
  str ("bold: label == \"From\" || label == \"To\" || label == \"Subject\",")

def litDotDotDefault : List Char := str ("..Default::default()")

def litBraceComma : List Char := str ("\x7d,")

def litBrace : List Char := str ("\x7d")

/-- The chunks of capture group 1 of the `format_email_header` rule. -/
def headerGroup1 : List Chunk :=
  [Chunk.lit litHdrFn, Chunk.ws, Chunk.lit litTextRunBrace, Chunk.ws,
   Chunk.lit litFmtLabelValue, Chunk.ws, Chunk.lit litStyleTextStyle, Chunk.ws,
   Chunk.lit litBoldHeader, Chunk.ws, Chunk.lit litDotDotDefault, Chunk.ws,
   Chunk.lit litBraceComma]

/-- The text inserted between `\1` and `\2` by the header replacement
template (the template's `\n` escapes are real line feeds). -/
def insHeader : List Char :=
  str ("\n            bounds: None,\n            char_positions: None,\n        ")

/-- The `format_email_header` rule of `fix_mbox` and `fix_msg`: pattern
`(group1)\s+(\})`, replacement `\1<inserted fields>\2`. -/
def ruleHeader : Rule where
  pat := headerGroup1 ++ [Chunk.ws, Chunk.lit litBrace]
  render := fun segs => (segs.take 13).flatten ++ insHeader ++ litBrace

def litPushTextRun : List Char := str ("text_runs.push(TextRun \x7b")

/-- `text: "\n".to_string(),` with backslash `n` inside the quotes. -/
def litTextNlString : List Char := str ("text: \"\\n\".to_string(),")

def litStyleDefault : List Char := str ("style: Default::default(),")

def litCloseParen : List Char := str ("\x7d);")

/-- Replacement for the newline-`TextRun` rule.  Python's replacement
template converts the `\\n` of the script (backslash `n`) into a real line
feed, so the inserted text has a literal newline inside the quotes. -/
def replNlRun : List Char :=
  str ("text_runs.push(TextRun \x7b\n            text: \"\n\".to_string(),\n            style: Default::default(),\n            bounds: None,\n            char_positions: None,\n        \x7d);")

/-- The newline-`TextRun` rule of `fix_mbox` and `fix_msg`. -/
def ruleNlRun : Rule where
  pat := [Chunk.lit litPushTextRun, Chunk.ws, Chunk.lit litTextNlString,
          Chunk.ws, Chunk.lit litStyleDefault, Chunk.ws, Chunk.lit litCloseParen]
  render := fun _ => replNlRun

def litTextBody : List Char := str ("text: body_text,")

def replBodyRun : List Char :=
  str ("text_runs.push(TextRun \x7b\n            text: body_text,\n            style: Default::default(),\n            bounds: None,\n            char_positions: None,\n        \x7d);")

/-- The body-text `TextRun` rule of `fix_mbox`. -/
def ruleBodyRun : Rule where
  pat := [Chunk.lit litPushTextRun, Chunk.ws, Chunk.lit litTextBody,
          Chunk.ws, Chunk.lit litStyleDefault, Chunk.ws, Chunk.lit litCloseParen]
  render := fun _ => replBodyRun

def litTextBodyClone : List Char := str ("text: body_text.clone(),")

def replBodyCloneRun : List Char :=
  str ("text_runs.push(TextRun \x7b\n            text: body_text.clone(),\n            style: Default::default(),\n            bounds: None,\n            char_positions: None,\n        \x7d);")

/-- The body-text `TextRun` rule of `fix_msg` (`body_text.clone()`). -/
def ruleBodyCloneRun : Rule where
  pat := [Chunk.lit litPushTextRun, Chunk.ws, Chunk.lit litTextBodyClone,
          Chunk.ws, Chunk.lit litStyleDefault, Chunk.ws, Chunk.lit litCloseParen]
  render := fun _ => replBodyCloneRun

def litLetTextBlock : List Char := str ("let text_block = TextBlock \x7b")

def litRunsTextRuns : List Char := str ("runs: text_runs,")

def litBoundsNone : List Char := str ("bounds: None,")

def litBraceSemi : List Char := str ("\x7d;")

/-- The `TextBlock` pattern, shared by all three fix routines. -/
def blockPat : List Chunk :=
  [Chunk.lit litLetTextBlock, Chunk.ws, Chunk.lit litRunsTextRuns,
   Chunk.ws, Chunk.lit litBoundsNone, Chunk.ws, Chunk.lit litBraceSemi]

def replBlockMbox : List Char :=
  str ("let text_block = TextBlock \x7b\n                            runs: text_runs,\n                            bounds: prism_core::document::Rect \x7b\n                                x: 0.0,\n                                y: 0.0,\n                                width: Dimensions::LETTER.width,\n                                height: Dimensions::LETTER.height,\n                            \x7d,\n                            paragraph_style: None,\n                        \x7d;")

/-- The `TextBlock` rule of `fix_mbox`. -/
def ruleBlockMbox : Rule where
  pat := blockPat
  render := fun _ => replBlockMbox

def replBlockMsg : List Char :=
  str ("let text_block = TextBlock \x7b\n            runs: text_runs,\n            bounds: prism_core::document::Rect \x7b\n                x: 0.0,\n                y: 0.0,\n                width: Dimensions::LETTER.width,\n                height: Dimensions::LETTER.height,\n            \x7d,\n            paragraph_style: None,\n        \x7d;")

/-- The `TextBlock` rule of `fix_msg` (different indentation). -/
def ruleBlockMsg : Rule where
  pat := blockPat
  render := fun _ => replBlockMsg

def replBlockVcf : List Char :=
  str ("let text_block = TextBlock \x7b\n                runs: text_runs,\n                bounds: prism_core::document::Rect \x7b\n                    x: 0.0,\n                    y: 0.0,\n                    width: Dimensions::LETTER.width,\n                    height: Dimensions::LETTER.height,\n                \x7d,\n                paragraph_style: None,\n            \x7d;")

/-- The `TextBlock` rule of `fix_vcf` (different indentation). -/
def ruleBlockVcf : Rule where
  pat := blockPat
  render := fun _ => replBlockVcf

/-- A literal-edit rule: `str.replace` / a regex without metacharacters. -/
def litRule (old new : List Char) : Rule where
  pat := [Chunk.lit old]
  render := fun _ => new

def oldAddrAsRef : List Char := str ("addr.address.as_ref().unwrap_or(&String::new())")

def oldAddrClone : List Char := str ("addr.address.clone().unwrap_or_default()")

def newAddr : List Char :=
  str ("addr.address.as_ref().map(|a| a.to_string()).unwrap_or_default()")

/-- `content.replace('addr.address.as_ref().unwrap_or(&String::new())', …)`. -/
def ruleAddrAsRef : Rule := litRule oldAddrAsRef newAddr

/-- `content.replace('addr.address.clone().unwrap_or_default()', …)`. -/
def ruleAddrClone : Rule := litRule oldAddrClone newAddr

def oldWarnImport : List Char := str ("use tracing::\x7bdebug, info, warn\x7d;")

def newWarnImport : List Char := str ("use tracing::\x7bdebug, info\x7d;")

/-- The unused-`warn`-import removal of `fix_msg`. -/
def ruleWarnImport : Rule := litRule oldWarnImport newWarnImport

/-- First anchor of the `format_field` pattern (vcf.rs). -/
def litFieldFn : List Char :=
  str ("fn format_field(&self, label: &str, value: &str, bold: bool) -> TextRun \x7b")

def litBoldComma : List Char := str ("bold,")

/-- The chunks of capture group 1 of the `format_field` rule. -/
def fieldGroup1 : List Chunk :=
  [Chunk.lit litFieldFn, Chunk.ws, Chunk.lit litTextRunBrace, Chunk.ws,
   Chunk.lit litFmtLabelValue, Chunk.ws, Chunk.lit litStyleTextStyle, Chunk.ws,
   Chunk.lit litBoldComma, Chunk.ws, Chunk.lit litDotDotDefault, Chunk.ws,
   Chunk.lit litBraceComma]

/-- The `format_field` rule of `fix_vcf` (same replacement template as the
header rule). -/
def ruleField : Rule where
  pat := fieldGroup1 ++ [Chunk.ws, Chunk.lit litBrace]
  render := fun segs => (segs.take 13).flatten ++ insHeader ++ litBrace

/-- `text: "\nNote:\n".to_string(),` with backslash `n` escapes. -/
def litNoteTitle : List Char := str ("text: \"\\nNote:\\n\".to_string(),")

def litBoldTrue : List Char := str ("bold: true,")

/-- Replacement of the note-title rule; the template turns both `\\n` of
the script into real line feeds inside the quotes. -/
def replNoteTitle : List Char :=
  str ("text_runs.push(TextRun \x7b\n                text: \"\nNote:\n\".to_string(),\n                style: TextStyle \x7b\n                    bold: true,\n                    ..Default::default()\n                \x7d,\n                bounds: None,\n                char_positions: None,\n            \x7d);")

/-- The bold note-title rule of `fix_vcf`. -/
def ruleNoteTitle : Rule where
  pat := [Chunk.lit litPushTextRun, Chunk.ws, Chunk.lit litNoteTitle,
          Chunk.ws, Chunk.lit litStyleTextStyle, Chunk.ws, Chunk.lit litBoldTrue,
          Chunk.ws, Chunk.lit litDotDotDefault, Chunk.ws, Chunk.lit litBraceComma,
          Chunk.ws, Chunk.lit litCloseParen]
  render := fun _ => replNoteTitle

/-- `text: format!("{}}\n", note),` — again the `\{}\}` quirk: a doubled
closing brace, then backslash `n`. -/
def litFmtNote : List Char := str ("text: format!(\"\x7b\x7d\x7d\\n\", note),")

/-- Replacement of the note-content rule; the template's `\\n` becomes a
real line feed inside the `format!` string. -/
def replNoteBody : List Char :=
  str ("text_runs.push(TextRun \x7b\n                text: format!(\"\x7b\x7d\n\", note),\n                style: Default::default(),\n                bounds: None,\n                char_positions: None,\n            \x7d);")

/-- The note-content rule of `fix_vcf`. -/
def ruleNoteBody : Rule where
  pat := [Chunk.lit litPushTextRun, Chunk.ws, Chunk.lit litFmtNote,
          Chunk.ws, Chunk.lit litStyleDefault, Chunk.ws, Chunk.lit litCloseParen]
  render := fun _ => replNoteBody

def oldFilter : List Char := str (".filter(|s| !s.is_empty())")

def newFilter : List Char := str (".filter(|s: &&str| !s.is_empty())")

/-- The filter-annotation rule of `fix_vcf`; its regex has every
metacharacter escaped, so it is a literal edit. -/
def ruleFilter : Rule := litRule oldFilter newFilter

/-! ### The three text transformations -/

/-- The in-memory text transformation performed by `fix_mbox` between the
read and the write: the four `re.sub` rules, then the two literal edits,
in source order. -/
def fix_mbox_text (s : List Char) : List Char :=
  applyR ruleAddrClone (applyR ruleAddrAsRef (applyR ruleBlockMbox
    (applyR ruleBodyRun (applyR ruleNlRun (applyR ruleHeader s)))))

/-- The in-memory text transformation performed by `fix_msg`. -/
def fix_msg_text (s : List Char) : List Char :=
  applyR ruleBlockMsg (applyR ruleBodyCloneRun (applyR ruleNlRun
    (applyR ruleHeader (applyR ruleWarnImport s))))

/-- The in-memory text transformation performed by `fix_vcf`. -/
def fix_vcf_text (s : List Char) : List Char :=
  applyR ruleFilter (applyR ruleBlockVcf (applyR ruleNoteBody
    (applyR ruleNoteTitle (applyR ruleField s))))

/-- `fix_mbox`'s transformation on strings. -/
def fix_mbox (s : String) : String :=
  String.mk (fix_mbox_text s.data)

/-- `fix_msg`'s transformation on strings. -/
def fix_msg (s : String) : String :=
  String.mk (fix_msg_text s.data)

/-- `fix_vcf`'s transformation on strings. -/
def fix_vcf (s : String) : String :=
  String.mk (fix_vcf_text s.data)

/-! ### Pattern states and single-character stepping

A *state* is a partially consumed pattern.  `step` advances a state by one
character: `none` means the match has definitely failed, `some st` means
matching the original state on `c :: u` fails iff matching `st` on `u`
fails.  The `wsOpt` chunk records a `\s+` whose first character has already
been consumed. -/

/-- Advance a pattern state by one character. -/
def step : List Chunk → Char → Option (List Chunk)
  | [], _ => some []
  | Chunk.lit [] :: ps, c => step ps c
  | Chunk.lit (d :: l) :: ps, c =>
    if d = c then some (if l.isEmpty then ps else Chunk.lit l :: ps) else none
  | Chunk.ws :: ps, c =>
    if isWsChar c then some (Chunk.wsOpt :: ps) else none
  | Chunk.wsOpt :: ps, c =>
    if isWsChar c then some (Chunk.wsOpt :: ps) else step ps c

/-- The mid-literal states of a literal chunk. -/
def litStates (l : List Char) (ps : List Chunk) : List (List Chunk) :=
  (List.range l.length).map (fun k => Chunk.lit (l.drop k) :: ps)

/-- All states reachable while matching a pattern (including the pattern
itself and the completed state `[]`). -/
def tailStates : List Chunk → List (List Chunk)
  | [] => [[]]
  | Chunk.lit l :: ps => litStates l ps ++ tailStates ps
  | Chunk.ws :: ps => (Chunk.ws :: ps) :: (Chunk.wsOpt :: ps) :: tailStates ps
  | Chunk.wsOpt :: ps => (Chunk.wsOpt :: ps) :: tailStates ps

/-- `failsWithin st pre = true` certifies that matching the state `st`
against `pre ++ t` fails for every continuation `t`: the failure happens
strictly inside `pre`. -/
def failsWithin : List Chunk → List Char → Bool
  | _, [] => false
  | st, c :: cs =>
    match step st c with
    | none => true
    | some st2 => failsWithin st2 cs

/-- `litClash l u = true` iff `l` and `u` disagree at some position below
both lengths; then `l` is not a prefix of `u ++ t` for any `t`. -/
def litClash : List Char → List Char → Bool
  | [], _ => false
  | _, [] => false
  | a :: l, b :: u => a ≠ b || litClash l u

/-- `clashOrAgreeWs l0 u`: either `l0` clashes with `u`, or `u` is a proper
prefix of `l0` whose continuation character in `l0` is not whitespace (so a
whitespace character following `u` also produces a clash). -/
def clashOrAgreeWs (l0 u : List Char) : Bool :=
  litClash l0 u ||
    (u.isPrefixOf l0 && decide (u.length < l0.length) &&
      !(isWsChar (l0.getD u.length 'a')))

/-! ### Structural properties of the matcher -/

theorem drop_takeWhile_length (p : Char → Bool) (s : List Char) :
    s.drop (s.takeWhile p).length = s.dropWhile p := by
  induction s with
  | nil => rfl
  | cons c cs ih =>
    by_cases h : p c
    · simp [List.takeWhile_cons, List.dropWhile_cons, h, ih]
    · simp [List.takeWhile_cons, List.dropWhile_cons, h]

/-- A successful match decomposes the input into the matched segments and
the rest. -/
theorem matchChunks_flatten : ∀ {ps : List Chunk} {s segs rest},
    matchChunks ps s = some (segs, rest) → segs.flatten ++ rest = s := by
  intro ps
  induction ps with
  | nil =>
    intro s segs rest h
    simp only [matchChunks, Option.some.injEq, Prod.mk.injEq] at h
    simp [← h.1, ← h.2]
  | cons ch ps ih =>
    intro s segs rest h
    cases ch with
    | lit l =>
      simp only [matchChunks] at h
      split at h
      · rw [Option.map_eq_some'] at h
        obtain ⟨⟨segs1, rest1⟩, hm, he⟩ := h
        obtain ⟨he1, he2⟩ := Prod.mk.injEq .. ▸ he
        subst he1; subst he2
        have hj := ih hm
        have hp : l <+: s := by
          next hpre => exact List.isPrefixOf_iff_prefix.mp hpre
        obtain ⟨t, ht⟩ := hp
        subst ht
        rw [List.drop_left] at hj
        simp [hj]
      · exact absurd h (by simp)
    | ws =>
      simp only [matchChunks] at h
      split at h
      · exact absurd h (by simp)
      · rw [Option.map_eq_some'] at h
        obtain ⟨⟨segs1, rest1⟩, hm, he⟩ := h
        obtain ⟨he1, he2⟩ := Prod.mk.injEq .. ▸ he
        subst he1; subst he2
        have hj := ih hm
        rw [drop_takeWhile_length] at hj
        simp only [List.flatten_cons, List.append_assoc, hj,
          List.takeWhile_append_dropWhile]
    | wsOpt =>
      simp only [matchChunks] at h
      rw [Option.map_eq_some'] at h
      obtain ⟨⟨segs1, rest1⟩, hm, he⟩ := h
      obtain ⟨he1, he2⟩ := Prod.mk.injEq .. ▸ he
      subst he1; subst he2
      have hj := ih hm
      rw [drop_takeWhile_length] at hj
      simp only [List.flatten_cons, List.append_assoc, hj,
        List.takeWhile_append_dropWhile]

/-- A match of a pattern with a leading literal starts with that literal. -/
theorem matchChunks_cons_lit {l : List Char} {ps : List Chunk} {s segs rest}
    (h : matchChunks (Chunk.lit l :: ps) s = some (segs, rest)) :
    ∃ segs2, segs = l :: segs2 ∧
      matchChunks ps (s.drop l.length) = some (segs2, rest) ∧
      l.isPrefixOf s = true := by
  simp only [matchChunks] at h
  split at h
  · rw [Option.map_eq_some'] at h
    obtain ⟨⟨segs1, rest1⟩, hm, he⟩ := h
    obtain ⟨he1, he2⟩ := Prod.mk.injEq .. ▸ he
    subst he1; subst he2
    next hpre => exact ⟨segs1, rfl, hm, hpre⟩
  · exact absurd h (by simp)

/-- A good rule consumes at least one character when it matches. -/
theorem matchChunks_rest_lt {r : Rule} (hg : GoodRule r) {s segs rest}
    (h : matchChunks r.pat s = some (segs, rest)) : rest.length < s.length := by
  obtain ⟨l, ps, hpat, hne⟩ := hg
  rw [hpat] at h
  obtain ⟨segs2, hsegs, hm, hpre⟩ := matchChunks_cons_lit h
  have hj := matchChunks_flatten (hpat ▸ h : matchChunks (Chunk.lit l :: ps) s = some (segs, rest))
  subst hsegs
  have : l ++ (segs2.flatten ++ rest) = s := by simpa using hj
  have hlen : l.length + (segs2.flatten.length + rest.length) = s.length := by
    rw [← this]; simp
  have hl : 1 ≤ l.length := by
    cases l with
    | nil => exact absurd rfl hne
    | cons a as => simp
  omega

/-- A match has one segment per chunk. -/
theorem matchChunks_length : ∀ {ps : List Chunk} {s segs rest},
    matchChunks ps s = some (segs, rest) → segs.length = ps.length := by
  intro ps
  induction ps with
  | nil =>
    intro s segs rest h
    simp only [matchChunks, Option.some.injEq, Prod.mk.injEq] at h
    simp [← h.1]
  | cons ch ps ih =>
    intro s segs rest h
    cases ch with
    | lit l =>
      simp only [matchChunks] at h
      split at h
      · rw [Option.map_eq_some'] at h
        obtain ⟨⟨segs1, rest1⟩, hm, he⟩ := h
        obtain ⟨he1, he2⟩ := Prod.mk.injEq .. ▸ he
        subst he1; subst he2
        simp [ih hm]
      · exact absurd h (by simp)
    | ws =>
      simp only [matchChunks] at h
      split at h
      · exact absurd h (by simp)
      · rw [Option.map_eq_some'] at h
        obtain ⟨⟨segs1, rest1⟩, hm, he⟩ := h
        obtain ⟨he1, he2⟩ := Prod.mk.injEq .. ▸ he
        subst he1; subst he2
        simp [ih hm]
    | wsOpt =>
      simp only [matchChunks] at h
      rw [Option.map_eq_some'] at h
      obtain ⟨⟨segs1, rest1⟩, hm, he⟩ := h
      obtain ⟨he1, he2⟩ := Prod.mk.injEq .. ▸ he
      subst he1; subst he2
      simp [ih hm]

/-- A pattern with a nonempty leading literal never matches the empty
string. -/
theorem matchChunks_nil_of_good {r : Rule} (hg : GoodRule r) :
    matchChunks r.pat [] = none := by
  obtain ⟨l, ps, hpat, hne⟩ := hg
  rw [hpat]
  cases l with
  | nil => exact absurd rfl hne
  | cons a as => simp [matchChunks, List.isPrefixOf]

/-! ### Fuel irrelevance and unfolding equations for the scanner -/

theorem subGo_nil (r : Rule) (n : Nat) : subGo r n [] = ([], 0) := by
  cases n <;> rfl

theorem subGo_fuel (r : Rule) (hg : GoodRule r) :
    ∀ (k : Nat) (s : List Char) (n m : Nat), s.length ≤ k →
      s.length ≤ n → s.length ≤ m → subGo r n s = subGo r m s := by
  intro k
  induction k with
  | zero =>
    intro s n m h1 _ _
    have : s = [] := List.length_eq_zero.mp (Nat.le_zero.mp h1)
    subst this
    rw [subGo_nil, subGo_nil]
  | succ k ih =>
    intro s n m h1 h2 h3
    cases s with
    | nil => rw [subGo_nil, subGo_nil]
    | cons c cs =>
      simp only [List.length_cons] at h1 h2 h3
      cases n with
      | zero => omega
      | succ n =>
        cases m with
        | zero => omega
        | succ m =>
          simp only [subGo]
          cases hm : matchChunks r.pat (c :: cs) with
          | none =>
            have := ih cs n m (by omega) (by omega) (by omega)
            simp [this]
          | some pr =>
            obtain ⟨segs, rest⟩ := pr
            have hlt := matchChunks_rest_lt hg hm
            simp only [List.length_cons] at hlt
            have hn : rest.length ≤ n := by omega
            have hmm : rest.length ≤ m := by omega
            dsimp only
            rw [if_pos hn, if_pos hmm, ih rest n m (by omega) hn hmm]

theorem applyC_nil (r : Rule) : applyC r [] = ([], 0) := by
  simp [applyC, subGo_nil]

theorem applyC_cons_none (r : Rule) {c : Char} {cs : List Char}
    (h : matchChunks r.pat (c :: cs) = none) :
    applyC r (c :: cs) = (c :: (applyC r cs).1, (applyC r cs).2) := by
  simp only [applyC, List.length_cons, subGo, h]

theorem applyC_cons_some (r : Rule) (hg : GoodRule r) {c : Char} {cs : List Char}
    {segs : List (List Char)} {rest : List Char}
    (h : matchChunks r.pat (c :: cs) = some (segs, rest)) :
    applyC r (c :: cs) =
      (r.render segs ++ (applyC r rest).1, (applyC r rest).2 + 1) := by
  have hlt := matchChunks_rest_lt hg h
  simp only [List.length_cons] at hlt
  have hle : rest.length ≤ cs.length := by omega
  simp only [applyC, List.length_cons, subGo, h, if_pos hle]
  rw [subGo_fuel r hg cs.length rest cs.length rest.length hle hle (Nat.le_refl _)]

theorem applyR_nil (r : Rule) : applyR r [] = [] := by
  simp [applyR, applyC_nil]

theorem applyR_cons_none (r : Rule) {c : Char} {cs : List Char}
    (h : matchChunks r.pat (c :: cs) = none) :
    applyR r (c :: cs) = c :: applyR r cs := by
  simp [applyR, applyC_cons_none r h]

theorem applyR_cons_some (r : Rule) (hg : GoodRule r) {c : Char} {cs : List Char}
    {segs : List (List Char)} {rest : List Char}
    (h : matchChunks r.pat (c :: cs) = some (segs, rest)) :
    applyR r (c :: cs) = r.render segs ++ applyR r rest := by
  simp [applyR, applyC_cons_some r hg h]

theorem countR_nil (r : Rule) : countR r [] = 0 := by
  simp [countR, applyC_nil]

theorem countR_cons_none (r : Rule) {c : Char} {cs : List Char}
    (h : matchChunks r.pat (c :: cs) = none) :
    countR r (c :: cs) = countR r cs := by
  simp [countR, applyC_cons_none r h]

theorem countR_cons_some (r : Rule) (hg : GoodRule r) {c : Char} {cs : List Char}
    {segs : List (List Char)} {rest : List Char}
    (h : matchChunks r.pat (c :: cs) = some (segs, rest)) :
    countR r (c :: cs) = countR r rest + 1 := by
  simp [countR, applyC_cons_some r hg h]

/-! ### Soundness of the single-character stepper -/

theorem step_sound : ∀ (st : List Chunk) (c : Char) (u : List Char),
    (step st c = none → matchChunks st (c :: u) = none) ∧
    (∀ st2, step st c = some st2 →
      (matchChunks st (c :: u) = none ↔ matchChunks st2 u = none)) := by
  intro st
  induction st with
  | nil =>
    intro c u
    refine ⟨fun h => by simp [step] at h, fun st2 h => ?_⟩
    simp only [step, Option.some.injEq] at h
    subst h
    simp [matchChunks]
  | cons ch ps ih =>
    intro c u
    cases ch with
    | lit l =>
      cases l with
      | nil =>
        have hred : ∀ s, matchChunks (Chunk.lit [] :: ps) s =
            (matchChunks ps s).map (fun pr => ([] :: pr.1, pr.2)) := by
          intro s; simp [matchChunks, List.isPrefixOf]
        refine ⟨fun h => ?_, fun st2 h => ?_⟩
        · simp only [step] at h
          rw [hred, (ih c u).1 h]
          rfl
        · simp only [step] at h
          rw [hred, Option.map_eq_none']
          exact (ih c u).2 st2 h
      | cons d l =>
        by_cases hdc : d = c
        · subst hdc
          refine ⟨fun h => ?_, fun st2 h => ?_⟩
          · simp [step] at h
          · simp only [step, eq_self_iff_true, if_true, Option.some.injEq] at h
            subst h
            cases l with
            | nil =>
              have hred : matchChunks (Chunk.lit [d] :: ps) (d :: u) =
                  (matchChunks ps u).map (fun pr => ([d] :: pr.1, pr.2)) := by
                simp [matchChunks, List.isPrefixOf]
              rw [hred]
              simp [Option.map_eq_none', List.isEmpty]
            | cons e l2 =>
              have hst : (if (e :: l2).isEmpty = true then ps
                  else Chunk.lit (e :: l2) :: ps) = Chunk.lit (e :: l2) :: ps := rfl
              rw [hst]
              by_cases hp : (e :: l2).isPrefixOf u = true
              · have hL : (d :: e :: l2).isPrefixOf (d :: u) = true := by
                  simp [List.isPrefixOf]; simpa using hp
                have hdl : (d :: u).drop (d :: e :: l2).length =
                    u.drop (e :: l2).length := by
                  simp [List.length_cons, List.drop_succ_cons]
                simp only [matchChunks, hL, hp, if_true, hdl]
                rw [Option.map_eq_none', Option.map_eq_none']
              · have hpf : (e :: l2).isPrefixOf u = false :=
                  Bool.not_eq_true _ ▸ eq_false_of_ne_true hp
                have hL : (d :: e :: l2).isPrefixOf (d :: u) = false := by
                  simp [List.isPrefixOf, hpf]
                simp [matchChunks, hL, hpf]
        · refine ⟨fun _h => ?_, fun st2 h => ?_⟩
          · have : (d :: l).isPrefixOf (c :: u) = false := by
              simp [List.isPrefixOf, hdc]
            simp [matchChunks, this]
          · simp only [step, if_neg hdc] at h
            exact absurd h (by simp)
    | ws =>
      have hOpt : matchChunks (Chunk.wsOpt :: ps) u =
          (matchChunks ps (u.drop (u.takeWhile isWsChar).length)).map
            (fun pr => (u.takeWhile isWsChar :: pr.1, pr.2)) := rfl
      by_cases hc : isWsChar c
      · refine ⟨fun h => ?_, fun st2 h => ?_⟩
        · simp [step, hc] at h
        · simp only [step, if_pos hc, Option.some.injEq] at h
          subst h
          have h1 : matchChunks (Chunk.ws :: ps) (c :: u) =
              (matchChunks ps (u.drop (u.takeWhile isWsChar).length)).map
                (fun pr => ((c :: u.takeWhile isWsChar) :: pr.1, pr.2)) := by
            simp [matchChunks, List.takeWhile_cons, hc]
          rw [h1, hOpt, Option.map_eq_none', Option.map_eq_none']
      · refine ⟨fun _h => ?_, fun st2 h => ?_⟩
        · have hcf : isWsChar c = false := by simpa using hc
          simp [matchChunks, List.takeWhile_cons, hcf]
        · simp only [step, if_neg hc] at h
          exact absurd h (by simp)
    | wsOpt =>
      have hOpt : matchChunks (Chunk.wsOpt :: ps) u =
          (matchChunks ps (u.drop (u.takeWhile isWsChar).length)).map
            (fun pr => (u.takeWhile isWsChar :: pr.1, pr.2)) := rfl
      by_cases hc : isWsChar c
      · refine ⟨fun h => ?_, fun st2 h => ?_⟩
        · simp [step, hc] at h
        · simp only [step, if_pos hc, Option.some.injEq] at h
          subst h
          have h1 : matchChunks (Chunk.wsOpt :: ps) (c :: u) =
              (matchChunks ps (u.drop (u.takeWhile isWsChar).length)).map
                (fun pr => ((c :: u.takeWhile isWsChar) :: pr.1, pr.2)) := by
            simp [matchChunks, List.takeWhile_cons, hc]
          rw [h1, hOpt, Option.map_eq_none', Option.map_eq_none']
      · have hcf : isWsChar c = false := by simpa using hc
        have hred : matchChunks (Chunk.wsOpt :: ps) (c :: u) =
            (matchChunks ps (c :: u)).map (fun pr => ([] :: pr.1, pr.2)) := by
          simp [matchChunks, List.takeWhile_cons, hcf]
        refine ⟨fun h => ?_, fun st2 h => ?_⟩
        · simp only [step, if_neg hc] at h
          rw [hred, (ih c u).1 h]
          rfl
        · simp only [step, if_neg hc] at h
          rw [hred, Option.map_eq_none']
          exact (ih c u).2 st2 h

/-! ### The state set is closed under stepping -/

/-- Well-formed patterns have no empty literal fragments (true of every
rule of the script). -/
def wfPat (ps : List Chunk) : Bool :=
  ps.all (fun ch => match ch with
    | Chunk.lit l => !l.isEmpty
    | _ => true)

theorem wfPat_lit {ps : List Chunk} (hw : wfPat ps = true) {l : List Char}
    (h : Chunk.lit l ∈ ps) : l ≠ [] := by
  have := List.all_eq_true.mp hw _ h
  intro hcon
  subst hcon
  simp [List.isEmpty] at this

theorem wfPat_tail {ch : Chunk} {ps : List Chunk} (hw : wfPat (ch :: ps) = true) :
    wfPat ps = true := by
  simp only [wfPat, List.all_cons, Bool.and_eq_true] at hw
  exact hw.2

theorem self_mem_tailStates : ∀ st : List Chunk, wfPat st = true → st ∈ tailStates st := by
  intro st hw
  cases st with
  | nil => simp [tailStates]
  | cons ch ps =>
    cases ch with
    | lit l =>
      simp only [tailStates]
      cases hl : l with
      | nil =>
        exact absurd rfl (hl ▸ wfPat_lit hw (List.mem_cons_self _ _))
      | cons d l2 =>
        refine List.mem_append_left _ ?_
        simp only [litStates, List.mem_map, List.mem_range]
        exact ⟨0, by simp, by simp⟩
    | ws => simp [tailStates]
    | wsOpt => simp [tailStates]

theorem tailStates_sub_cons (ch : Chunk) (ps : List Chunk) :
    tailStates ps ⊆ tailStates (ch :: ps) := by
  intro st h
  cases ch with
  | lit l => simp only [tailStates]; exact List.mem_append_right _ h
  | ws => simp only [tailStates]; exact List.mem_cons_of_mem _ (List.mem_cons_of_mem _ h)
  | wsOpt => simp only [tailStates]; exact List.mem_cons_of_mem _ h

theorem step_closure : ∀ (P : List Chunk), wfPat P = true → ∀ (st : List Chunk), st ∈ tailStates P →
    ∀ (c : Char) (st2 : List Chunk), step st c = some st2 → st2 ∈ tailStates P := by
  intro P
  induction P with
  | nil =>
    intro _hw st hst c st2 h
    simp only [tailStates, List.mem_singleton] at hst
    subst hst
    simp only [step, Option.some.injEq] at h
    subst h
    simp [tailStates]
  | cons ch ps ih =>
    intro hw st hst c st2 h
    cases ch with
    | lit l =>
      simp only [tailStates, List.mem_append] at hst
      rcases hst with hst | hst
      · simp only [litStates, List.mem_map, List.mem_range] at hst
        obtain ⟨k, hk, hsteq⟩ := hst
        subst hsteq
        cases hdk : l.drop k with
        | nil =>
          have : l.length ≤ k := by
            have := congrArg List.length hdk
            simp only [List.length_drop, List.length_nil] at this
            omega
          omega
        | cons d l2 =>
          rw [hdk] at h
          simp only [step] at h
          split at h
          · simp only [Option.some.injEq] at h
            subst h
            have hl2 : l.drop (k + 1) = l2 := by
              have h1 : (l.drop k).drop 1 = l.drop (k + 1) := List.drop_drop 1 k l
              rw [hdk] at h1
              simpa using h1.symm
            by_cases hl2e : l2.isEmpty = true
            · have hnil : l2 = [] := by
                cases l2 with
                | nil => rfl
                | cons a as => simp [List.isEmpty] at hl2e
              subst hnil
              rw [if_pos hl2e]
              exact tailStates_sub_cons _ _ (self_mem_tailStates ps (wfPat_tail hw))
            · rw [if_neg hl2e]
              have hne : l2 ≠ [] := by
                intro hcon; subst hcon; simp [List.isEmpty] at hl2e
              have hk1 : k + 1 < l.length := by
                by_contra hcon
                have : l.drop (k + 1) = [] := List.drop_eq_nil_of_le (by omega)
                rw [hl2] at this
                exact hne this
              refine List.mem_append_left _ ?_
              simp only [litStates, List.mem_map, List.mem_range]
              exact ⟨k + 1, hk1, by rw [hl2]⟩
          · exact absurd h (by simp)
      · exact tailStates_sub_cons _ _ (ih (wfPat_tail hw) st hst c st2 h)
    | ws =>
      simp only [tailStates, List.mem_cons] at hst
      rcases hst with hst | hst | hst
      · subst hst
        simp only [step] at h
        split at h
        · simp only [Option.some.injEq] at h
          subst h
          simp [tailStates]
        · exact absurd h (by simp)
      · subst hst
        simp only [step] at h
        split at h
        · simp only [Option.some.injEq] at h
          subst h
          simp [tailStates]
        · exact tailStates_sub_cons _ _
            (ih (wfPat_tail hw) ps (self_mem_tailStates ps (wfPat_tail hw)) c st2 h)
      · exact tailStates_sub_cons _ _ (ih (wfPat_tail hw) st hst c st2 h)
    | wsOpt =>
      simp only [tailStates, List.mem_cons] at hst
      rcases hst with hst | hst
      · subst hst
        simp only [step] at h
        split at h
        · simp only [Option.some.injEq] at h
          subst h
          simp [tailStates]
        · exact tailStates_sub_cons _ _
            (ih (wfPat_tail hw) ps (self_mem_tailStates ps (wfPat_tail hw)) c st2 h)
      · exact tailStates_sub_cons _ _ (ih (wfPat_tail hw) st hst c st2 h)

/-! ### Soundness of the within-prefix failure check -/

theorem failsWithin_sound : ∀ (pre : List Char) (st : List Chunk),
    failsWithin st pre = true → ∀ t, matchChunks st (pre ++ t) = none := by
  intro pre
  induction pre with
  | nil => intro st h t; simp [failsWithin] at h
  | cons c cs ih =>
    intro st h t
    cases hs : step st c with
    | none => exact (step_sound st c (cs ++ t)).1 hs
    | some st2 =>
      have h2 : failsWithin st2 cs = true := by
        simpa [failsWithin, hs] using h
      exact ((step_sound st c (cs ++ t)).2 st2 hs).mpr (ih st2 h2 t)

/-! ### Clash lemmas -/

theorem litClash_append : ∀ {l u : List Char}, litClash l u = true →
    ∀ v, litClash l (u ++ v) = true := by
  intro l
  induction l with
  | nil => intro u h v; simp [litClash] at h
  | cons a l ih =>
    intro u h v
    cases u with
    | nil => simp [litClash] at h
    | cons b u =>
      simp only [litClash, Bool.or_eq_true] at h
      rcases h with h | h
      · simp [litClash, h]
      · simp only [List.cons_append, litClash, Bool.or_eq_true]
        exact Or.inr (ih h v)

theorem litClash_not_prefixOf : ∀ {l u : List Char}, litClash l u = true →
    ∀ t, l.isPrefixOf (u ++ t) = false := by
  intro l
  induction l with
  | nil => intro u h t; simp [litClash] at h
  | cons a l ih =>
    intro u h t
    cases u with
    | nil => simp [litClash] at h
    | cons b u =>
      simp only [litClash, Bool.or_eq_true] at h
      rcases h with h | h
      · have hab : (a == b) = false := by
          simpa using of_decide_eq_true h
        simp [List.isPrefixOf, hab]
      · simp [List.isPrefixOf, ih h t]

theorem matchChunks_none_of_clash {l0 : List Char} {ps : List Chunk} {u t : List Char}
    (h : litClash l0 u = true) : matchChunks (Chunk.lit l0 :: ps) (u ++ t) = none := by
  simp [matchChunks, litClash_not_prefixOf h t]

theorem litClash_head {a b : Char} (h : a ≠ b) (l u : List Char) :
    litClash (a :: l) (b :: u) = true := by
  simp [litClash, h]

theorem litClash_of_agree : ∀ {u l0 : List Char}, u.isPrefixOf l0 = true →
    u.length < l0.length → ∀ {d : Char}, d ≠ l0.getD u.length 'a' →
    ∀ v, litClash l0 (u ++ d :: v) = true := by
  intro u
  induction u with
  | nil =>
    intro l0 _ hlen d hd v
    cases l0 with
    | nil => simp at hlen
    | cons a l0t =>
      simp only [List.getD, List.getElem?_cons_zero,
        List.nil_append] at hd ⊢
      exact litClash_head (fun hcon => hd (by simp [hcon, List.getD])) l0t v
  | cons b u ih =>
    intro l0 hpre hlen d hd v
    cases l0 with
    | nil => simp [List.isPrefixOf] at hpre
    | cons a l0t =>
      simp only [List.isPrefixOf, Bool.and_eq_true, beq_iff_eq] at hpre
      obtain ⟨hba, hpre2⟩ := hpre
      subst hba
      simp only [List.length_cons, Nat.add_lt_add_iff_right] at hlen
      have hd2 : d ≠ l0t.getD u.length 'a' := by
        intro hcon
        exact hd (by simpa [List.getD] using hcon)
      simp only [List.cons_append, litClash, Bool.or_eq_true]
      exact Or.inr (ih hpre2 hlen hd2 v)

/-! ### Alternating whitespace and literal segments -/

/-- A nonempty run of whitespace characters. -/
def WsRun (w : List Char) : Prop := w ≠ [] ∧ ∀ c ∈ w, isWsChar c = true

/-- `AltTail C lits v` says `v = w₁ ++ l₁ ++ w₂ ++ l₂ ++ … ++ wₙ ++ lₙ ++ C`
with each `wᵢ` a nonempty whitespace run and the `lᵢ` the given literals:
the shape of the text following the first anchor in a match of one of the
structural patterns. -/
inductive AltTail (C : List Char) : List (List Char) → List Char → Prop where
  | base : AltTail C [] C
  | cons {w l ls v} : WsRun w → AltTail C ls v → AltTail C (l :: ls) (w ++ (l ++ v))

theorem altTail_head_ws {C : List Char} (hC : C ≠ [])
    (hCw : isWsChar (C.headD 'a') = true) :
    ∀ {ls v}, AltTail C ls v → v ≠ [] ∧ isWsChar (v.headD 'a') = true := by
  intro ls v h
  induction h with
  | base => exact ⟨hC, hCw⟩
  | @cons w l ls2 v2 hw _ _ =>
    obtain ⟨hwne, hwall⟩ := hw
    cases w with
    | nil => exact absurd rfl hwne
    | cons c wt =>
      exact ⟨by simp, by simpa using hwall c (List.mem_cons_self _ _)⟩

/-- Every position strictly inside the alternating tail of a block clashes
with a pattern's leading literal (whose head is not whitespace). -/
theorem altTail_clash {p0 : Char} {l0t : List Char}
    (hnw : isWsChar p0 = false)
    {C : List Char} (hC : C ≠ []) (hCw : isWsChar (C.headD 'a') = true)
    (hCc : ∀ j, j < C.length → litClash (p0 :: l0t) (C.drop j) = true) :
    ∀ {ls : List (List Char)} {v : List Char}, AltTail C ls v →
      (∀ l ∈ ls, ∀ j, j < l.length → clashOrAgreeWs (p0 :: l0t) (l.drop j) = true) →
      ∀ k, k < v.length → litClash (p0 :: l0t) (v.drop k) = true := by
  intro ls v hAlt
  induction hAlt with
  | base => intro _ k hk; exact hCc k hk
  | @cons w l ls2 v2 hw hAlt2 ih =>
    intro hls k hk
    have hls2 : ∀ l2 ∈ ls2, ∀ j, j < l2.length →
        clashOrAgreeWs (p0 :: l0t) (l2.drop j) = true :=
      fun l2 hm => hls l2 (List.mem_cons_of_mem _ hm)
    rw [List.drop_append_eq_append_drop]
    by_cases hkw : k < w.length
    · have hzero : k - w.length = 0 := by omega
      rw [hzero, List.drop_zero]
      cases hwd : w.drop k with
      | nil =>
        have := congrArg List.length hwd
        simp only [List.length_drop, List.length_nil] at this
        omega
      | cons c wt =>
        have hcw : isWsChar c = true := by
          have hcmem : c ∈ w := List.drop_subset k w (hwd ▸ List.mem_cons_self c wt)
          exact hw.2 c hcmem
        have hne : p0 ≠ c := by
          intro hcon
          rw [hcon, hcw] at hnw
          exact absurd hnw (by simp)
        rw [List.cons_append]
        exact litClash_head hne _ _
    · have hwk : w.drop k = [] := List.drop_eq_nil_of_le (by omega)
      rw [hwk, List.nil_append, List.drop_append_eq_append_drop]
      by_cases hkl : k - w.length < l.length
      · have hzero : k - w.length - l.length = 0 := by omega
        rw [hzero, List.drop_zero]
        have hcoa := hls l (List.mem_cons_self _ _) (k - w.length) hkl
        simp only [clashOrAgreeWs, Bool.or_eq_true, Bool.and_eq_true] at hcoa
        rcases hcoa with hclash | ⟨⟨hpre, hlt⟩, hnws⟩
        · exact litClash_append hclash v2
        · have hlt2 : (l.drop (k - w.length)).length < (p0 :: l0t).length :=
            of_decide_eq_true hlt
          have hv2 : v2 ≠ [] ∧ isWsChar (v2.headD 'a') = true :=
            altTail_head_ws hC hCw hAlt2
          cases hv2d : v2 with
          | nil => exact absurd hv2d hv2.1
          | cons d v2t =>
            have hdws : isWsChar d = true := by
              have := hv2.2; rw [hv2d] at this; simpa using this
            refine litClash_of_agree hpre hlt2 ?_ v2t
            intro hcon
            rw [← hcon] at hnws
            simp [hdws] at hnws
      · have hlk : l.drop (k - w.length) = [] := List.drop_eq_nil_of_le (by omega)
        rw [hlk, List.nil_append]
        refine ih hls2 (k - w.length - l.length) ?_
        simp only [List.length_append] at hk
        omega

/-- A clash-or-agreement with a pattern head extends to a clash when the
text continues with a whitespace character. -/
theorem clashOrAgree_extend {p0 : Char} {l0pt u v : List Char}
    (hcoa : clashOrAgreeWs (p0 :: l0pt) u = true) (hv : v ≠ [])
    (hvw : isWsChar (v.headD 'a') = true) :
    litClash (p0 :: l0pt) (u ++ v) = true := by
  simp only [clashOrAgreeWs, Bool.or_eq_true, Bool.and_eq_true] at hcoa
  rcases hcoa with hclash | ⟨⟨hpre, hlt⟩, hnws⟩
  · exact litClash_append hclash v
  · cases v with
    | nil => exact absurd rfl hv
    | cons d vt =>
      have hdws : isWsChar d = true := by simpa using hvw
      refine litClash_of_agree hpre (of_decide_eq_true hlt) ?_ vt
      intro hcon
      rw [← hcon] at hnws
      simp [hdws] at hnws

/-- Every position strictly inside a block `L0 ++ v` (other than its start)
clashes with the pattern's leading literal. -/
theorem block_suffix_clash {p0 : Char} {l0pt : List Char} (hnw : isWsChar p0 = false)
    {L0 C : List Char} {lits : List (List Char)}
    (hC : C ≠ []) (hCw : isWsChar (C.headD 'a') = true)
    (hCc : ∀ j, j < C.length → litClash (p0 :: l0pt) (C.drop j) = true)
    (hb : ∀ k, 1 ≤ k → k < L0.length → clashOrAgreeWs (p0 :: l0pt) (L0.drop k) = true)
    (hls : ∀ l ∈ lits, ∀ j, j < l.length → clashOrAgreeWs (p0 :: l0pt) (l.drop j) = true)
    {v : List Char} (hAlt : AltTail C lits v) :
    ∀ k, 1 ≤ k → k < (L0 ++ v).length →
      litClash (p0 :: l0pt) ((L0 ++ v).drop k) = true := by
  intro k h1 h2
  rw [List.drop_append_eq_append_drop]
  have hv := altTail_head_ws hC hCw hAlt
  by_cases hkL : k < L0.length
  · have hz : k - L0.length = 0 := by omega
    rw [hz, List.drop_zero]
    exact clashOrAgree_extend (hb k h1 hkL) hv.1 hv.2
  · rw [List.drop_eq_nil_of_le (by omega), List.nil_append]
    refine altTail_clash hnw hC hCw hCc hAlt hls (k - L0.length) ?_
    simp only [List.length_append] at h2
    omega

/-! ### Decomposing matches over appended patterns -/

theorem matchChunks_append : ∀ (A B : List Chunk) (s : List Char),
    matchChunks (A ++ B) s =
      (matchChunks A s).bind (fun pr =>
        (matchChunks B pr.2).map (fun pr2 => (pr.1 ++ pr2.1, pr2.2))) := by
  intro A
  induction A with
  | nil =>
    intro B s
    cases hm : matchChunks B s with
    | none => simp [matchChunks, hm]
    | some pr => simp [matchChunks, hm]
  | cons ch ps ih =>
    intro B s
    cases ch with
    | lit l =>
      simp only [List.cons_append, List.append_eq, matchChunks]
      by_cases hp : l.isPrefixOf s = true
      · rw [if_pos hp, if_pos hp, ih]
        cases hm : matchChunks ps (s.drop l.length) with
        | none => simp
        | some pr =>
          cases hm2 : matchChunks B pr.2 with
          | none => simp [hm2]
          | some pr2 => simp [hm2]
      · rw [if_neg hp, if_neg hp]
        simp
    | ws =>
      simp only [List.cons_append, List.append_eq, matchChunks]
      by_cases hz : (s.takeWhile isWsChar).length = 0
      · rw [if_pos hz, if_pos hz]; simp
      · rw [if_neg hz, if_neg hz, ih]
        cases hm : matchChunks ps (s.drop (s.takeWhile isWsChar).length) with
        | none => simp
        | some pr =>
          cases hm2 : matchChunks B pr.2 with
          | none => simp [hm2]
          | some pr2 => simp [hm2]
    | wsOpt =>
      simp only [List.cons_append, List.append_eq, matchChunks]
      rw [ih]
      cases hm : matchChunks ps (s.drop (s.takeWhile isWsChar).length) with
      | none => simp
      | some pr =>
        cases hm2 : matchChunks B pr.2 with
        | none => simp [hm2]
        | some pr2 => simp [hm2]

/-- Inversion for a leading `\s+` chunk. -/
theorem matchChunks_cons_ws {ps : List Chunk} {s : List Char} {segs rest}
    (h : matchChunks (Chunk.ws :: ps) s = some (segs, rest)) :
    ∃ segs2, segs = s.takeWhile isWsChar :: segs2 ∧
      (s.takeWhile isWsChar) ≠ [] ∧
      matchChunks ps (s.drop (s.takeWhile isWsChar).length) = some (segs2, rest) := by
  simp only [matchChunks] at h
  split at h
  · exact absurd h (by simp)
  · rw [Option.map_eq_some'] at h
    obtain ⟨⟨segs1, rest1⟩, hm, he⟩ := h
    obtain ⟨he1, he2⟩ := Prod.mk.injEq .. ▸ he
    subst he1; subst he2
    refine ⟨segs1, rfl, ?_, hm⟩
    next hz =>
      intro hcon
      exact hz (by rw [hcon]; rfl)

/-- `takeWhile` over a whitespace run followed by a non-whitespace
character stops exactly at the run. -/
theorem takeWhile_ws_append {w : List Char} (hw : ∀ c ∈ w, isWsChar c = true)
    {d : Char} (hd : isWsChar d = false) (y : List Char) :
    (w ++ d :: y).takeWhile isWsChar = w := by
  induction w with
  | nil => simp [List.takeWhile_cons, hd]
  | cons c wt ih =>
    have hc := hw c (List.mem_cons_self _ _)
    simp [List.takeWhile_cons, hc,
      ih (fun c2 h2 => hw c2 (List.mem_cons_of_mem _ h2))]

/-! ### The alternating chunk patterns of the structural rules -/

/-- The chunk pattern `\s+ l₁ \s+ l₂ … \s+ lₙ`. -/
def AltChunks (lits : List (List Char)) : List Chunk :=
  lits.foldr (fun l acc => Chunk.ws :: Chunk.lit l :: acc) []

/-- The text matched by an alternating pattern has the `AltTail` shape
(relative to any continuation `C`). -/
theorem matchChunks_altChunks : ∀ {lits : List (List Char)} {s : List Char} {segs rest},
    matchChunks (AltChunks lits) s = some (segs, rest) →
    ∀ C, AltTail C lits (segs.flatten ++ C) := by
  intro lits
  induction lits with
  | nil =>
    intro s segs rest h C
    simp only [AltChunks, List.foldr_nil, matchChunks, Option.some.injEq,
      Prod.mk.injEq] at h
    rw [← h.1]
    simpa using AltTail.base
  | cons l ls ih =>
    intro s segs rest h C
    simp only [AltChunks, List.foldr_cons] at h
    obtain ⟨segs2, hsegs, hwne, h2⟩ := matchChunks_cons_ws h
    obtain ⟨segs3, hsegs3, h3, _⟩ := matchChunks_cons_lit h2
    subst hsegs; subst hsegs3
    have hAlt := ih h3 C
    have hws : WsRun (s.takeWhile isWsChar) :=
      ⟨hwne, fun c hc => List.mem_takeWhile_imp hc⟩
    have := AltTail.cons (C := C) (l := l) hws hAlt
    simpa [List.append_assoc] using this

/-- Replaying an alternating match on its own matched text consumes exactly
that text (the literals all start with a non-whitespace character). -/
theorem matchChunks_altChunks_replay : ∀ {lits : List (List Char)},
    (∀ l ∈ lits, l ≠ [] ∧ isWsChar (l.headD 'a') = false) →
    ∀ {s segs rest}, matchChunks (AltChunks lits) s = some (segs, rest) →
    ∀ X, matchChunks (AltChunks lits) (segs.flatten ++ X) = some (segs, X) := by
  intro lits
  induction lits with
  | nil =>
    intro _ s segs rest h X
    simp only [AltChunks, List.foldr_nil, matchChunks, Option.some.injEq,
      Prod.mk.injEq] at h
    rw [← h.1]
    simp [AltChunks, matchChunks]
  | cons l ls ih =>
    intro hh s segs rest h X
    simp only [AltChunks, List.foldr_cons] at h ⊢
    obtain ⟨segs2, hsegs, hwne, h2⟩ := matchChunks_cons_ws h
    obtain ⟨segs3, hsegs3, h3, _⟩ := matchChunks_cons_lit h2
    subst hsegs; subst hsegs3
    obtain ⟨hlne, hlnw⟩ := hh l (List.mem_cons_self _ _)
    obtain ⟨d, lt, hld⟩ : ∃ d lt, l = d :: lt := by
      cases l with
      | nil => exact absurd rfl hlne
      | cons d lt => exact ⟨d, lt, rfl⟩
    have hdnw : isWsChar d = false := by
      rw [hld] at hlnw; simpa using hlnw
    have hwall : ∀ c ∈ s.takeWhile isWsChar, isWsChar c = true :=
      fun c hc => List.mem_takeWhile_imp hc
    -- the replayed text
    have hflat : (s.takeWhile isWsChar :: l :: segs3).flatten ++ X =
        s.takeWhile isWsChar ++ (l ++ (segs3.flatten ++ X)) := by
      simp [List.append_assoc]
    rw [hflat]
    have htw : (s.takeWhile isWsChar ++ (l ++ (segs3.flatten ++ X))).takeWhile isWsChar
        = s.takeWhile isWsChar := by
      rw [hld]
      exact takeWhile_ws_append hwall hdnw _
    simp only [matchChunks, htw]
    rw [if_neg (by simpa using fun hcon => hwne (List.length_eq_zero.mp hcon))]
    rw [List.drop_left]
    have hpre : l.isPrefixOf (l ++ (segs3.flatten ++ X)) = true :=
      List.isPrefixOf_iff_prefix.mpr (List.prefix_append _ _)
    simp only [matchChunks, hpre, if_true]
    rw [List.drop_left]
    have hrec := ih (fun l2 hm => hh l2 (List.mem_cons_of_mem _ hm)) h3 X
    simp only [AltChunks] at hrec
    rw [hrec]
    rfl

/-! ### Generic preservation of match failure under rewriting -/

/-- Every proper state of the pattern `P` dies inside every replacement
block the rule `r` can produce. -/
def DiesOnAll (P : List Chunk) (r : Rule) : Prop :=
  ∀ {s : List Char} {segs : List (List Char)} {rest : List Char},
    matchChunks r.pat s = some (segs, rest) →
    ∀ st ∈ tailStates P, st ≠ [] → ∀ t, matchChunks st (r.render segs ++ t) = none

/-- Every strict suffix of every replacement block kills the full pattern
`P` regardless of what follows. -/
def BlockTailDead (P : List Chunk) (r : Rule) : Prop :=
  ∀ {s : List Char} {segs : List (List Char)} {rest : List Char},
    matchChunks r.pat s = some (segs, rest) →
    ∀ k, 1 ≤ k → k < (r.render segs).length →
      ∀ t, matchChunks P ((r.render segs).drop k ++ t) = none

/-- The pattern `P` never matches anywhere in `t`. -/
def NoMatchAt (P : List Chunk) (t : List Char) : Prop :=
  ∀ k, matchChunks P (t.drop k) = none

theorem noMatchAt_cons {P : List Chunk} {c : Char} {cs : List Char}
    (h : NoMatchAt P (c :: cs)) : NoMatchAt P cs :=
  fun k => by
    have := h (k + 1)
    rwa [List.drop_succ_cons] at this

theorem noMatchAt_append_right {P : List Chunk} {a b : List Char}
    (h : NoMatchAt P (a ++ b)) : NoMatchAt P b := by
  intro k
  have h2 := h (a.length + k)
  rw [List.drop_append_eq_append_drop,
    List.drop_eq_nil_of_le (Nat.le_add_right _ _), List.nil_append,
    Nat.add_sub_cancel_left] at h2
  exact h2

/-- A state whose match fails on a text keeps failing after the rule has
rewritten that text. -/
theorem preserve_none (r : Rule) (hg : GoodRule r) (P : List Chunk)
    (hw : wfPat P = true) (hd : DiesOnAll P r) :
    ∀ (n : Nat) (s : List Char), s.length ≤ n → ∀ st ∈ tailStates P,
      matchChunks st s = none → matchChunks st (applyR r s) = none := by
  intro n
  induction n with
  | zero =>
    intro s hs st _ hnone
    have : s = [] := List.length_eq_zero.mp (Nat.le_zero.mp hs)
    subst this
    rwa [applyR_nil]
  | succ n ih =>
    intro s hs st hmem hnone
    cases s with
    | nil => rwa [applyR_nil]
    | cons c cs =>
      simp only [List.length_cons] at hs
      cases hm : matchChunks r.pat (c :: cs) with
      | some pr =>
        obtain ⟨segs, rest⟩ := pr
        rw [applyR_cons_some r hg hm]
        have hne : st ≠ [] := by
          intro hcon; subst hcon; simp [matchChunks] at hnone
        exact hd hm st hmem hne (applyR r rest)
      | none =>
        rw [applyR_cons_none r hm]
        cases hstep : step st c with
        | none => exact (step_sound st c (applyR r cs)).1 hstep
        | some st2 =>
          have h1 := ((step_sound st c cs).2 st2 hstep).mp hnone
          have h2 := ih cs (by omega) st2
            (step_closure P hw st hmem c st2 hstep) h1
          exact ((step_sound st c (applyR r cs)).2 st2 hstep).mpr h2

/-- The output of a rule contains no match of its own pattern. -/
theorem applyR_clean (r : Rule) (hg : GoodRule r) (hw : wfPat r.pat = true)
    (hd : DiesOnAll r.pat r) (hk : BlockTailDead r.pat r) :
    ∀ (n : Nat) (s : List Char), s.length ≤ n → NoMatchAt r.pat (applyR r s) := by
  intro n
  induction n with
  | zero =>
    intro s hs
    have : s = [] := List.length_eq_zero.mp (Nat.le_zero.mp hs)
    subst this
    rw [applyR_nil]
    intro k
    rw [List.drop_nil]
    exact matchChunks_nil_of_good hg
  | succ n ih =>
    intro s hs
    cases s with
    | nil =>
      rw [applyR_nil]
      intro k
      rw [List.drop_nil]
      exact matchChunks_nil_of_good hg
    | cons c cs =>
      simp only [List.length_cons] at hs
      cases hm : matchChunks r.pat (c :: cs) with
      | some pr =>
        obtain ⟨segs, rest⟩ := pr
        have hrlt := matchChunks_rest_lt hg hm
        simp only [List.length_cons] at hrlt
        rw [applyR_cons_some r hg hm]
        intro k
        rw [List.drop_append_eq_append_drop]
        by_cases hkB : k < (r.render segs).length
        · have hz : k - (r.render segs).length = 0 := by omega
          rw [hz, List.drop_zero]
          by_cases hk0 : k = 0
          · subst hk0
            rw [List.drop_zero]
            have hpne : r.pat ≠ [] := by
              obtain ⟨l, ps, hpat, _⟩ := hg; rw [hpat]; simp
            exact hd hm r.pat (self_mem_tailStates _ hw) hpne (applyR r rest)
          · exact hk hm k (by omega) hkB (applyR r rest)
        · rw [List.drop_eq_nil_of_le (by omega), List.nil_append]
          exact ih rest (by omega) (k - (r.render segs).length)
      | none =>
        rw [applyR_cons_none r hm]
        intro k
        cases k with
        | zero =>
          rw [List.drop_zero]
          cases hstep : step r.pat c with
          | none => exact (step_sound _ c _).1 hstep
          | some st2 =>
            have h1 := ((step_sound _ c cs).2 st2 hstep).mp hm
            have h2 := preserve_none r hg r.pat hw hd cs.length cs (Nat.le_refl _) st2
              (step_closure _ hw _ (self_mem_tailStates _ hw) c st2 hstep) h1
            exact ((step_sound _ c (applyR r cs)).2 st2 hstep).mpr h2
        | succ k =>
          rw [List.drop_succ_cons]
          exact ih cs (by omega) k

/-- A rule keeps a foreign pattern matchless. -/
theorem applyR_preserve_clean (r : Rule) (hg : GoodRule r) (P : List Chunk)
    (hw : wfPat P = true) (hPne : P ≠ [])
    (hd : DiesOnAll P r) (hk : BlockTailDead P r) :
    ∀ (n : Nat) (s : List Char), s.length ≤ n → NoMatchAt P s →
      NoMatchAt P (applyR r s) := by
  intro n
  induction n with
  | zero =>
    intro s hs hcl
    have : s = [] := List.length_eq_zero.mp (Nat.le_zero.mp hs)
    subst this
    rwa [applyR_nil]
  | succ n ih =>
    intro s hs hcl
    cases s with
    | nil => rwa [applyR_nil]
    | cons c cs =>
      simp only [List.length_cons] at hs
      cases hm : matchChunks r.pat (c :: cs) with
      | some pr =>
        obtain ⟨segs, rest⟩ := pr
        have hrlt := matchChunks_rest_lt hg hm
        simp only [List.length_cons] at hrlt
        have hsplit := matchChunks_flatten hm
        have hclr : NoMatchAt P rest := by
          rw [← hsplit] at hcl
          exact noMatchAt_append_right hcl
        rw [applyR_cons_some r hg hm]
        intro k
        rw [List.drop_append_eq_append_drop]
        by_cases hkB : k < (r.render segs).length
        · have hz : k - (r.render segs).length = 0 := by omega
          rw [hz, List.drop_zero]
          by_cases hk0 : k = 0
          · subst hk0
            rw [List.drop_zero]
            exact hd hm P (self_mem_tailStates _ hw) hPne (applyR r rest)
          · exact hk hm k (by omega) hkB (applyR r rest)
        · rw [List.drop_eq_nil_of_le (by omega), List.nil_append]
          exact ih rest (by omega) hclr (k - (r.render segs).length)
      | none =>
        rw [applyR_cons_none r hm]
        intro k
        cases k with
        | zero =>
          rw [List.drop_zero]
          cases hstep : step P c with
          | none => exact (step_sound _ c _).1 hstep
          | some st2 =>
            have h0 := hcl 0
            rw [List.drop_zero] at h0
            have h1 := ((step_sound _ c cs).2 st2 hstep).mp h0
            have h2 := preserve_none r hg P hw hd cs.length cs (Nat.le_refl _) st2
              (step_closure _ hw _ (self_mem_tailStates _ hw) c st2 hstep) h1
            exact ((step_sound _ c (applyR r cs)).2 st2 hstep).mpr h2
        | succ k =>
          rw [List.drop_succ_cons]
          exact ih cs (by omega) (noMatchAt_cons hcl) k

/-- A rule is the identity (with zero matches) on matchless text. -/
theorem applyC_id_of_clean (r : Rule) :
    ∀ s, NoMatchAt r.pat s → applyC r s = (s, 0) := by
  intro s
  induction s with
  | nil => intro _; exact applyC_nil r
  | cons c cs ih =>
    intro hcl
    have h0 := hcl 0
    rw [List.drop_zero] at h0
    rw [applyC_cons_none r h0, ih (noMatchAt_cons hcl)]

theorem applyR_id_of_clean (r : Rule) {s : List Char} (h : NoMatchAt r.pat s) :
    applyR r s = s := by
  simp [applyR, applyC_id_of_clean r s h]

theorem countR_zero_of_clean (r : Rule) {s : List Char} (h : NoMatchAt r.pat s) :
    countR r s = 0 := by
  simp [countR, applyC_id_of_clean r s h]

theorem applyR_clean_all (r : Rule) (hg : GoodRule r) (hw : wfPat r.pat = true)
    (hd : DiesOnAll r.pat r) (hk : BlockTailDead r.pat r) (s : List Char) :
    NoMatchAt r.pat (applyR r s) :=
  applyR_clean r hg hw hd hk s.length s (Nat.le_refl _)

theorem applyR_preserve_clean_all (r : Rule) (hg : GoodRule r) (P : List Chunk)
    (hw : wfPat P = true) (hPne : P ≠ [])
    (hd : DiesOnAll P r) (hk : BlockTailDead P r) {s : List Char}
    (h : NoMatchAt P s) : NoMatchAt P (applyR r s) :=
  applyR_preserve_clean r hg P hw hPne hd hk s.length s (Nat.le_refl _) h

/-! ### Discharging the death conditions by computation -/

/-- `DiesOnAll` for a rule with a fixed replacement, from the computed
check that every state of `P` fails inside the replacement. -/
theorem diesOnAll_of_const (P : List Chunk) (r : Rule) (R : List Char)
    (hr : ∀ segs, r.render segs = R)
    (hchk : (tailStates P).all
      (fun st => st == ([] : List Chunk) || failsWithin st R) = true) :
    DiesOnAll P r := by
  intro s segs rest _ st hmem hne t
  have h2 := List.all_eq_true.mp hchk st hmem
  rw [Bool.or_eq_true] at h2
  rcases h2 with h2 | h2
  · exact absurd (by simpa using h2) hne
  · rw [hr segs]
    exact failsWithin_sound R st h2 t

/-- `BlockTailDead` for a rule with a fixed replacement, from the computed
check that `P` fails inside every strict suffix of the replacement. -/
theorem blockTailDead_of_const (P : List Chunk) (r : Rule) (R : List Char)
    (hr : ∀ segs, r.render segs = R)
    (hchk : (List.range R.length).all
      (fun k => k == 0 || failsWithin P (R.drop k)) = true) :
    BlockTailDead P r := by
  intro s segs rest _ k h1 h2 t
  rw [hr segs] at h2 ⊢
  have h3 := List.all_eq_true.mp hchk k (List.mem_range.mpr h2)
  rw [Bool.or_eq_true] at h3
  rcases h3 with h3 | h3
  · have : k = 0 := by simpa using h3
    omega
  · exact failsWithin_sound _ P h3 t

/-! ### The capture-group rules -/

/-- The common shape of the two capture-group rules (`format_email_header`
and `format_field`). -/
def hdrStyleRule (l0 : List Char) (lits : List (List Char)) : Rule where
  pat := (Chunk.lit l0 :: AltChunks lits) ++ [Chunk.ws, Chunk.lit litBrace]
  render := fun segs => (segs.take 13).flatten ++ insHeader ++ litBrace

/-- The interior literals of the header pattern. -/
def hdrTailLits : List (List Char) :=
  [litTextRunBrace, litFmtLabelValue, litStyleTextStyle, litBoldHeader,
   litDotDotDefault, litBraceComma]

/-- The interior literals of the field pattern. -/
def fldTailLits : List (List Char) :=
  [litTextRunBrace, litFmtLabelValue, litStyleTextStyle, litBoldComma,
   litDotDotDefault, litBraceComma]

theorem ruleHeader_eq : ruleHeader = hdrStyleRule litHdrFn hdrTailLits := rfl

theorem ruleField_eq : ruleField = hdrStyleRule litFieldFn fldTailLits := rfl

/-- The concrete tail of every replacement block of a capture-group rule. -/
def hdrC : List Char := insHeader ++ litBrace

/-- Decomposition of a match of a capture-group rule, and the shape of the
replacement it produces. -/
theorem hdrStyle_match_shape {l0 : List Char} {lits : List (List Char)}
    (h13 : (Chunk.lit l0 :: AltChunks lits).length = 13)
    {s : List Char} {segs : List (List Char)} {rest : List Char}
    (h : matchChunks (hdrStyleRule l0 lits).pat s = some (segs, rest)) :
    ∃ segsA2 restA segsB,
      matchChunks (AltChunks lits) (s.drop l0.length) = some (segsA2, restA) ∧
      matchChunks [Chunk.ws, Chunk.lit litBrace] restA = some (segsB, rest) ∧
      segs = (l0 :: segsA2) ++ segsB ∧
      (hdrStyleRule l0 lits).render segs =
        l0 ++ (segsA2.flatten ++ hdrC) := by
  have happ := matchChunks_append (Chunk.lit l0 :: AltChunks lits)
    [Chunk.ws, Chunk.lit litBrace] s
  rw [show (hdrStyleRule l0 lits).pat =
    (Chunk.lit l0 :: AltChunks lits) ++ [Chunk.ws, Chunk.lit litBrace] from rfl] at h
  rw [happ, Option.bind_eq_some] at h
  obtain ⟨⟨segsA, restA⟩, hA, hf⟩ := h
  rw [Option.map_eq_some'] at hf
  obtain ⟨⟨segsB, restB⟩, hB, he⟩ := hf
  have h2 : segsA ++ segsB = segs ∧ restB = rest := by
    simpa [Prod.ext_iff] using he
  obtain ⟨segsA2, hsegsA, hmA2, _⟩ := matchChunks_cons_lit hA
  subst hsegsA
  have hlenA : (l0 :: segsA2).length =
      (Chunk.lit l0 :: AltChunks lits).length := matchChunks_length hA
  refine ⟨segsA2, restA, segsB, hmA2, ?_, ?_, ?_⟩
  · rw [h2.2] at hB; exact hB
  · exact h2.1.symm
  · rw [← h2.1]
    show (((l0 :: segsA2) ++ segsB).take 13).flatten ++ insHeader ++ litBrace =
      l0 ++ (segsA2.flatten ++ hdrC)
    rw [List.take_left' (by rw [hlenA, h13])]
    simp [hdrC, List.append_assoc]

/-- `DiesOnAll` for a capture-group rule: a foreign state dies inside the
concrete anchor at the head of the block, while the rule's own pattern
replays the block head exactly and then dies at the inserted fields. -/
theorem diesOnAll_hdrStyle (P : List Chunk) (l0 : List Char) (lits : List (List Char))
    (h13 : (Chunk.lit l0 :: AltChunks lits).length = 13)
    (hheads : ∀ l ∈ lits, l ≠ [] ∧ isWsChar (l.headD 'a') = false)
    (htail : failsWithin [Chunk.ws, Chunk.lit litBrace] insHeader = true)
    (hchk : (tailStates P).all (fun st =>
      st == ([] : List Chunk) || st == (hdrStyleRule l0 lits).pat ||
        failsWithin st l0) = true) :
    DiesOnAll P (hdrStyleRule l0 lits) := by
  intro s segs rest h st hmem hne t
  obtain ⟨segsA2, restA, segsB, hmA2, _hmB, _hsegs, hrender⟩ :=
    hdrStyle_match_shape h13 h
  rw [hrender]
  have h2 := List.all_eq_true.mp hchk st hmem
  simp only [Bool.or_eq_true] at h2
  rcases h2 with (h2 | h2) | h2
  · exact absurd (by simpa using h2) hne
  · have hst : st = (hdrStyleRule l0 lits).pat := by simpa using h2
    subst hst
    rw [show (hdrStyleRule l0 lits).pat =
      (Chunk.lit l0 :: AltChunks lits) ++ [Chunk.ws, Chunk.lit litBrace] from rfl,
      matchChunks_append]
    have htext : (l0 ++ (segsA2.flatten ++ hdrC)) ++ t =
        l0 ++ (segsA2.flatten ++ (insHeader ++ (litBrace ++ t))) := by
      simp [hdrC, List.append_assoc]
    rw [htext]
    have hrep1 := matchChunks_altChunks_replay hheads hmA2
      (insHeader ++ (litBrace ++ t))
    have hpre : l0.isPrefixOf
        (l0 ++ (segsA2.flatten ++ (insHeader ++ (litBrace ++ t)))) = true :=
      List.isPrefixOf_iff_prefix.mpr (List.prefix_append _ _)
    have hrep : matchChunks (Chunk.lit l0 :: AltChunks lits)
        (l0 ++ (segsA2.flatten ++ (insHeader ++ (litBrace ++ t)))) =
        some (l0 :: segsA2, insHeader ++ (litBrace ++ t)) := by
      simp only [matchChunks, hpre, if_true, List.drop_left, hrep1]
      rfl
    rw [hrep]
    have hdie := failsWithin_sound insHeader
      [Chunk.ws, Chunk.lit litBrace] htail (litBrace ++ t)
    simp [hdie]
  · have htext : (l0 ++ (segsA2.flatten ++ hdrC)) ++ t =
        l0 ++ ((segsA2.flatten ++ hdrC) ++ t) := by
      simp [List.append_assoc]
    rw [htext]
    exact failsWithin_sound l0 st h2 _

/-- `BlockTailDead` for a capture-group rule, via the clash analysis of the
alternating block shape. -/
theorem blockTailDead_hdrStyle (p0 : Char) (l0pt : List Char) (psP : List Chunk)
    (hnw : isWsChar p0 = false)
    (l0 : List Char) (lits : List (List Char))
    (h13 : (Chunk.lit l0 :: AltChunks lits).length = 13)
    (hCw : hdrC ≠ [] ∧ isWsChar (hdrC.headD 'a') = true)
    (hb : (List.range l0.length).all
      (fun k => k == 0 || clashOrAgreeWs (p0 :: l0pt) (l0.drop k)) = true)
    (hls : lits.all (fun l => (List.range l.length).all
      (fun j => clashOrAgreeWs (p0 :: l0pt) (l.drop j))) = true)
    (hCc : (List.range hdrC.length).all
      (fun j => litClash (p0 :: l0pt) (hdrC.drop j)) = true) :
    BlockTailDead (Chunk.lit (p0 :: l0pt) :: psP) (hdrStyleRule l0 lits) := by
  intro s segs rest h k h1 h2 t
  obtain ⟨segsA2, restA, segsB, hmA2, _hmB, _hsegs, hrender⟩ :=
    hdrStyle_match_shape h13 h
  rw [hrender] at h2 ⊢
  have hAlt := matchChunks_altChunks hmA2 hdrC
  have hclash := block_suffix_clash hnw hCw.1 hCw.2
    (fun j hj => List.all_eq_true.mp hCc j (List.mem_range.mpr hj))
    (fun k2 hk1 hk2 => by
      have := List.all_eq_true.mp hb k2 (List.mem_range.mpr hk2)
      rw [Bool.or_eq_true] at this
      rcases this with hz | hcoa
      · exact absurd (by simpa using hz) (by omega)
      · exact hcoa)
    (fun l hl j hj =>
      List.all_eq_true.mp (List.all_eq_true.mp hls l hl) j (List.mem_range.mpr hj))
    hAlt k h1 (by simpa using h2)
  exact matchChunks_none_of_clash hclash

/-- Packaging of `blockTailDead_hdrStyle` taking the pattern with its
leading literal as a whole. -/
theorem blockTailDead_hdrStyle3 (P : List Chunk) (l0p : List Char) (psP : List Chunk)
    (hP : P = Chunk.lit l0p :: psP) (hl0pne : l0p ≠ [])
    (hnw : isWsChar (l0p.headD 'a') = false)
    (l0 : List Char) (lits : List (List Char))
    (h13 : (Chunk.lit l0 :: AltChunks lits).length = 13)
    (hCw : hdrC ≠ [] ∧ isWsChar (hdrC.headD 'a') = true)
    (hb : (List.range l0.length).all
      (fun k => k == 0 || clashOrAgreeWs l0p (l0.drop k)) = true)
    (hls : lits.all (fun l => (List.range l.length).all
      (fun j => clashOrAgreeWs l0p (l.drop j))) = true)
    (hCc : (List.range hdrC.length).all
      (fun j => litClash l0p (hdrC.drop j)) = true) :
    BlockTailDead P (hdrStyleRule l0 lits) := by
  subst hP
  cases l0p with
  | nil => exact absurd rfl hl0pne
  | cons p0 l0pt =>
    exact blockTailDead_hdrStyle p0 l0pt psP (by simpa using hnw) l0 lits
      h13 hCw hb hls hCc

/-! ### Rule facts -/

theorem goodHeader : GoodRule ruleHeader := ⟨litHdrFn, _, rfl, by decide⟩
theorem goodNlRun : GoodRule ruleNlRun := ⟨litPushTextRun, _, rfl, by decide⟩
theorem goodBodyRun : GoodRule ruleBodyRun := ⟨litPushTextRun, _, rfl, by decide⟩
theorem goodBodyCloneRun : GoodRule ruleBodyCloneRun :=
  ⟨litPushTextRun, _, rfl, by decide⟩
theorem goodBlockMbox : GoodRule ruleBlockMbox := ⟨litLetTextBlock, _, rfl, by decide⟩
theorem goodBlockMsg : GoodRule ruleBlockMsg := ⟨litLetTextBlock, _, rfl, by decide⟩
theorem goodBlockVcf : GoodRule ruleBlockVcf := ⟨litLetTextBlock, _, rfl, by decide⟩
theorem goodAddrAsRef : GoodRule ruleAddrAsRef := ⟨oldAddrAsRef, _, rfl, by decide⟩
theorem goodAddrClone : GoodRule ruleAddrClone := ⟨oldAddrClone, _, rfl, by decide⟩
theorem goodWarnImport : GoodRule ruleWarnImport := ⟨oldWarnImport, _, rfl, by decide⟩
theorem goodField : GoodRule ruleField := ⟨litFieldFn, _, rfl, by decide⟩
theorem goodNoteTitle : GoodRule ruleNoteTitle := ⟨litPushTextRun, _, rfl, by decide⟩
theorem goodNoteBody : GoodRule ruleNoteBody := ⟨litPushTextRun, _, rfl, by decide⟩
theorem goodFilter : GoodRule ruleFilter := ⟨oldFilter, _, rfl, by decide⟩

theorem wfHeader : wfPat ruleHeader.pat = true := by rfl
theorem wfNlRun : wfPat ruleNlRun.pat = true := by rfl
theorem wfBodyRun : wfPat ruleBodyRun.pat = true := by rfl
theorem wfBodyCloneRun : wfPat ruleBodyCloneRun.pat = true := by rfl
theorem wfBlock : wfPat blockPat = true := by rfl
theorem wfAddrAsRef : wfPat ruleAddrAsRef.pat = true := by rfl
theorem wfAddrClone : wfPat ruleAddrClone.pat = true := by rfl
theorem wfWarnImport : wfPat ruleWarnImport.pat = true := by rfl
theorem wfField : wfPat ruleField.pat = true := by rfl
theorem wfNoteTitle : wfPat ruleNoteTitle.pat = true := by rfl
theorem wfNoteBody : wfPat ruleNoteBody.pat = true := by rfl
theorem wfFilter : wfPat ruleFilter.pat = true := by rfl

/-! ### Occurrence checks and leftmost-scan structure -/

/-- Decidable check that a pattern matches nowhere in `t`. -/
def noOccur (P : List Chunk) (t : List Char) : Bool :=
  (List.range (t.length + 1)).all (fun k => (matchChunks P (t.drop k)).isNone)

theorem noMatchAt_of_noOccur {P : List Chunk} {t : List Char}
    (h : noOccur P t = true) : NoMatchAt P t := by
  intro k
  by_cases hk : k ≤ t.length
  · have h2 := List.all_eq_true.mp h k (List.mem_range.mpr (by omega))
    simpa [Option.isNone_iff_eq_none] using h2
  · have h2 := List.all_eq_true.mp h t.length (List.mem_range.mpr (by omega))
    rw [List.drop_eq_nil_of_le (by omega)]
    rw [List.drop_eq_nil_of_le (by omega)] at h2
    simpa [Option.isNone_iff_eq_none] using h2

/-- Matching a bare literal against itself plus a continuation. -/
theorem matchChunks_lit_self (l b : List Char) :
    matchChunks [Chunk.lit l] (l ++ b) = some ([l], b) := by
  have hp : l.isPrefixOf (l ++ b) = true :=
    List.isPrefixOf_iff_prefix.mpr (List.prefix_append _ _)
  simp [matchChunks, hp, List.drop_left]

/-- A literal pattern matches a position iff the literal is a prefix
there. -/
theorem matchChunks_lit_none_iff {l u : List Char} :
    matchChunks [Chunk.lit l] u = none ↔ ¬ (l <+: u) := by
  by_cases hp : l.isPrefixOf u = true
  · simp [matchChunks, hp, List.isPrefixOf_iff_prefix.mp hp]
  · have hp2 : l.isPrefixOf u = false := by
      cases hb : l.isPrefixOf u with
      | true => exact absurd hb hp
      | false => rfl
    simp only [matchChunks, hp2]
    simp only [Bool.false_eq_true, if_false, true_iff]
    exact fun h => hp (List.isPrefixOf_iff_prefix.mpr h)

/-- No match of a bare literal anywhere means the literal is not an infix. -/
theorem not_infix_of_noMatchAt {old t : List Char}
    (h : NoMatchAt [Chunk.lit old] t) : ¬ old <:+: t := by
  intro hinf
  obtain ⟨a, b, hab⟩ : ∃ a b, a ++ (old ++ b) = t := by
    obtain ⟨a, b, hab⟩ := hinf
    exact ⟨a, b, by simpa [List.append_assoc] using hab⟩
  have h2 := h a.length
  rw [← hab, List.drop_append_eq_append_drop,
    List.drop_eq_nil_of_le (Nat.le_refl _), List.nil_append,
    Nat.sub_self, List.drop_zero, matchChunks_lit_self] at h2
  exact absurd h2 (by simp)

/-- Leftmost scan structure: if no match starts inside `a` and one starts
right after it, the rule copies `a`, replaces the match, and resumes after
its end. -/
theorem applyR_scan (r : Rule) (hg : GoodRule r) :
    ∀ (a s2 : List Char) (segs : List (List Char)) (rest : List Char),
      (∀ p, p < a.length → matchChunks r.pat ((a ++ s2).drop p) = none) →
      matchChunks r.pat s2 = some (segs, rest) →
      applyR r (a ++ s2) = a ++ (r.render segs ++ applyR r rest) ∧
      countR r (a ++ s2) = countR r rest + 1 := by
  intro a
  induction a with
  | nil =>
    intro s2 segs rest _ hm
    cases s2 with
    | nil => rw [matchChunks_nil_of_good hg] at hm; exact absurd hm (by simp)
    | cons c cs =>
      rw [List.nil_append]
      exact ⟨by rw [applyR_cons_some r hg hm, List.nil_append],
        countR_cons_some r hg hm⟩
  | cons c a2 ih =>
    intro s2 segs rest ha hm
    have h0 := ha 0 (by simp)
    rw [List.drop_zero, List.cons_append] at h0
    have ha2 : ∀ p, p < a2.length → matchChunks r.pat ((a2 ++ s2).drop p) = none := by
      intro p hp
      have := ha (p + 1) (by simp; omega)
      rwa [List.cons_append, List.drop_succ_cons] at this
    obtain ⟨hap, hcnt⟩ := ih s2 segs rest ha2 hm
    rw [List.cons_append]
    constructor
    · rw [applyR_cons_none r h0, hap, List.cons_append]
    · rw [countR_cons_none r h0, hcnt]

/-- A rule whose pattern matches the whole input replaces everything. -/
theorem applyR_of_match_all (r : Rule) (hg : GoodRule r) {s : List Char}
    {segs : List (List Char)} (h : matchChunks r.pat s = some (segs, [])) :
    applyR r s = r.render segs := by
  cases s with
  | nil => rw [matchChunks_nil_of_good hg] at h; exact absurd h (by simp)
  | cons c cs =>
    rw [applyR_cons_some r hg h, applyR_nil, List.append_nil]

/-- Interleaving of whitespace runs and literals. -/
def wsInter : List (List Char) → List (List Char) → List Char
  | w :: ws2, l :: ls => w ++ (l ++ wsInter ws2 ls)
  | _, _ => []

/-- An alternating pattern matches any interleaving of nonempty whitespace
runs with its literals. -/
theorem matchChunks_altChunks_build : ∀ (lits wss : List (List Char)),
    wss.length = lits.length →
    (∀ l ∈ lits, l ≠ [] ∧ isWsChar (l.headD 'a') = false) →
    (∀ w ∈ wss, WsRun w) →
    ∀ X, ∃ segs, matchChunks (AltChunks lits) (wsInter wss lits ++ X) = some (segs, X) := by
  intro lits
  induction lits with
  | nil =>
    intro wss hlen _ _ X
    have : wss = [] := List.length_eq_zero.mp (by simpa using hlen)
    subst this
    exact ⟨[], by simp [wsInter, AltChunks, matchChunks]⟩
  | cons l ls ih =>
    intro wss hlen hh hw X
    cases wss with
    | nil => simp at hlen
    | cons w ws2 =>
      obtain ⟨hlne, hlnw⟩ := hh l (List.mem_cons_self _ _)
      obtain ⟨d, lt, hld⟩ : ∃ d lt, l = d :: lt := by
        cases l with
        | nil => exact absurd rfl hlne
        | cons d lt => exact ⟨d, lt, rfl⟩
      have hdnw : isWsChar d = false := by rw [hld] at hlnw; simpa using hlnw
      have hwr := hw w (List.mem_cons_self _ _)
      obtain ⟨segs2, hm2⟩ := ih ws2 (by simpa using hlen)
        (fun l2 h2 => hh l2 (List.mem_cons_of_mem _ h2))
        (fun w2 h2 => hw w2 (List.mem_cons_of_mem _ h2)) X
      refine ⟨w :: l :: segs2, ?_⟩
      have hshape : wsInter (w :: ws2) (l :: ls) ++ X =
          w ++ (l ++ (wsInter ws2 ls ++ X)) := by
        simp [wsInter, List.append_assoc]
      rw [hshape]
      have htw : (w ++ (l ++ (wsInter ws2 ls ++ X))).takeWhile isWsChar = w := by
        rw [hld]
        exact takeWhile_ws_append hwr.2 hdnw _
      simp only [AltChunks, List.foldr_cons, matchChunks, htw]
      rw [if_neg (by simpa using fun hcon => hwr.1 (List.length_eq_zero.mp hcon))]
      rw [List.drop_left]
      have hpre : l.isPrefixOf (l ++ (wsInter ws2 ls ++ X)) = true :=
        List.isPrefixOf_iff_prefix.mpr (List.prefix_append _ _)
      simp only [matchChunks, hpre, if_true]
      rw [List.drop_left]
      simp only [AltChunks] at hm2
      rw [hm2]
      rfl

/-! ### Death-condition instances for every pattern/rule pair -/
theorem dA_H_H : DiesOnAll ruleHeader.pat ruleHeader := by
  rw [ruleHeader_eq]
  exact diesOnAll_hdrStyle _ litHdrFn hdrTailLits rfl (by decide) (by rfl) (by rfl)
theorem dB_H_H : BlockTailDead ruleHeader.pat ruleHeader := by
  rw [ruleHeader_eq]
  exact blockTailDead_hdrStyle3 _ litHdrFn _ rfl (by decide) (by rfl)
    litHdrFn hdrTailLits rfl ⟨by decide, by rfl⟩ (by rfl) (by rfl) (by rfl)
theorem dA_H_N : DiesOnAll ruleHeader.pat ruleNlRun :=
  diesOnAll_of_const _ _ replNlRun (fun _ => rfl) (by rfl)
theorem dB_H_N : BlockTailDead ruleHeader.pat ruleNlRun :=
  blockTailDead_of_const _ _ replNlRun (fun _ => rfl) (by rfl)
theorem dA_H_B : DiesOnAll ruleHeader.pat ruleBodyRun :=
  diesOnAll_of_const _ _ replBodyRun (fun _ => rfl) (by rfl)
theorem dB_H_B : BlockTailDead ruleHeader.pat ruleBodyRun :=
  blockTailDead_of_const _ _ replBodyRun (fun _ => rfl) (by rfl)
theorem dA_H_K : DiesOnAll ruleHeader.pat ruleBlockMbox :=
  diesOnAll_of_const _ _ replBlockMbox (fun _ => rfl) (by rfl)
theorem dB_H_K : BlockTailDead ruleHeader.pat ruleBlockMbox :=
  blockTailDead_of_const _ _ replBlockMbox (fun _ => rfl) (by rfl)
theorem dA_H_A1 : DiesOnAll ruleHeader.pat ruleAddrAsRef :=
  diesOnAll_of_const _ _ newAddr (fun _ => rfl) (by rfl)
theorem dB_H_A1 : BlockTailDead ruleHeader.pat ruleAddrAsRef :=
  blockTailDead_of_const _ _ newAddr (fun _ => rfl) (by rfl)
theorem dA_H_A2 : DiesOnAll ruleHeader.pat ruleAddrClone :=
  diesOnAll_of_const _ _ newAddr (fun _ => rfl) (by rfl)
theorem dB_H_A2 : BlockTailDead ruleHeader.pat ruleAddrClone :=
  blockTailDead_of_const _ _ newAddr (fun _ => rfl) (by rfl)
theorem dA_N_N : DiesOnAll ruleNlRun.pat ruleNlRun :=
  diesOnAll_of_const _ _ replNlRun (fun _ => rfl) (by rfl)
theorem dB_N_N : BlockTailDead ruleNlRun.pat ruleNlRun :=
  blockTailDead_of_const _ _ replNlRun (fun _ => rfl) (by rfl)
theorem dA_N_B : DiesOnAll ruleNlRun.pat ruleBodyRun :=
  diesOnAll_of_const _ _ replBodyRun (fun _ => rfl) (by rfl)
theorem dB_N_B : BlockTailDead ruleNlRun.pat ruleBodyRun :=
  blockTailDead_of_const _ _ replBodyRun (fun _ => rfl) (by rfl)
theorem dA_N_K : DiesOnAll ruleNlRun.pat ruleBlockMbox :=
  diesOnAll_of_const _ _ replBlockMbox (fun _ => rfl) (by rfl)
theorem dB_N_K : BlockTailDead ruleNlRun.pat ruleBlockMbox :=
  blockTailDead_of_const _ _ replBlockMbox (fun _ => rfl) (by rfl)
theorem dA_N_A1 : DiesOnAll ruleNlRun.pat ruleAddrAsRef :=
  diesOnAll_of_const _ _ newAddr (fun _ => rfl) (by rfl)
theorem dB_N_A1 : BlockTailDead ruleNlRun.pat ruleAddrAsRef :=
  blockTailDead_of_const _ _ newAddr (fun _ => rfl) (by rfl)
theorem dA_N_A2 : DiesOnAll ruleNlRun.pat ruleAddrClone :=
  diesOnAll_of_const _ _ newAddr (fun _ => rfl) (by rfl)
theorem dB_N_A2 : BlockTailDead ruleNlRun.pat ruleAddrClone :=
  blockTailDead_of_const _ _ newAddr (fun _ => rfl) (by rfl)
theorem dA_B_B : DiesOnAll ruleBodyRun.pat ruleBodyRun :=
  diesOnAll_of_const _ _ replBodyRun (fun _ => rfl) (by rfl)
theorem dB_B_B : BlockTailDead ruleBodyRun.pat ruleBodyRun :=
  blockTailDead_of_const _ _ replBodyRun (fun _ => rfl) (by rfl)
theorem dA_B_K : DiesOnAll ruleBodyRun.pat ruleBlockMbox :=
  diesOnAll_of_const _ _ replBlockMbox (fun _ => rfl) (by rfl)
theorem dB_B_K : BlockTailDead ruleBodyRun.pat ruleBlockMbox :=
  blockTailDead_of_const _ _ replBlockMbox (fun _ => rfl) (by rfl)
theorem dA_B_A1 : DiesOnAll ruleBodyRun.pat ruleAddrAsRef :=
  diesOnAll_of_const _ _ newAddr (fun _ => rfl) (by rfl)
theorem dB_B_A1 : BlockTailDead ruleBodyRun.pat ruleAddrAsRef :=
  blockTailDead_of_const _ _ newAddr (fun _ => rfl) (by rfl)
theorem dA_B_A2 : DiesOnAll ruleBodyRun.pat ruleAddrClone :=
  diesOnAll_of_const _ _ newAddr (fun _ => rfl) (by rfl)
theorem dB_B_A2 : BlockTailDead ruleBodyRun.pat ruleAddrClone :=
  blockTailDead_of_const _ _ newAddr (fun _ => rfl) (by rfl)
theorem dA_K_K : DiesOnAll ruleBlockMbox.pat ruleBlockMbox :=
  diesOnAll_of_const _ _ replBlockMbox (fun _ => rfl) (by rfl)
theorem dB_K_K : BlockTailDead ruleBlockMbox.pat ruleBlockMbox :=
  blockTailDead_of_const _ _ replBlockMbox (fun _ => rfl) (by rfl)
theorem dA_K_A1 : DiesOnAll ruleBlockMbox.pat ruleAddrAsRef :=
  diesOnAll_of_const _ _ newAddr (fun _ => rfl) (by rfl)
theorem dB_K_A1 : BlockTailDead ruleBlockMbox.pat ruleAddrAsRef :=
  blockTailDead_of_const _ _ newAddr (fun _ => rfl) (by rfl)
theorem dA_K_A2 : DiesOnAll ruleBlockMbox.pat ruleAddrClone :=
  diesOnAll_of_const _ _ newAddr (fun _ => rfl) (by rfl)
theorem dB_K_A2 : BlockTailDead ruleBlockMbox.pat ruleAddrClone :=
  blockTailDead_of_const _ _ newAddr (fun _ => rfl) (by rfl)
theorem dA_A1_A1 : DiesOnAll ruleAddrAsRef.pat ruleAddrAsRef :=
  diesOnAll_of_const _ _ newAddr (fun _ => rfl) (by rfl)
theorem dB_A1_A1 : BlockTailDead ruleAddrAsRef.pat ruleAddrAsRef :=
  blockTailDead_of_const _ _ newAddr (fun _ => rfl) (by rfl)
theorem dA_A1_A2 : DiesOnAll ruleAddrAsRef.pat ruleAddrClone :=
  diesOnAll_of_const _ _ newAddr (fun _ => rfl) (by rfl)
theorem dB_A1_A2 : BlockTailDead ruleAddrAsRef.pat ruleAddrClone :=
  blockTailDead_of_const _ _ newAddr (fun _ => rfl) (by rfl)
theorem dA_A2_A2 : DiesOnAll ruleAddrClone.pat ruleAddrClone :=
  diesOnAll_of_const _ _ newAddr (fun _ => rfl) (by rfl)
theorem dB_A2_A2 : BlockTailDead ruleAddrClone.pat ruleAddrClone :=
  blockTailDead_of_const _ _ newAddr (fun _ => rfl) (by rfl)
theorem dA_W_W : DiesOnAll ruleWarnImport.pat ruleWarnImport :=
  diesOnAll_of_const _ _ newWarnImport (fun _ => rfl) (by rfl)
theorem dB_W_W : BlockTailDead ruleWarnImport.pat ruleWarnImport :=
  blockTailDead_of_const _ _ newWarnImport (fun _ => rfl) (by rfl)
theorem dA_W_H : DiesOnAll ruleWarnImport.pat ruleHeader := by
  rw [ruleHeader_eq]
  exact diesOnAll_hdrStyle _ litHdrFn hdrTailLits rfl (by decide) (by rfl) (by rfl)
theorem dB_W_H : BlockTailDead ruleWarnImport.pat ruleHeader := by
  rw [ruleHeader_eq]
  exact blockTailDead_hdrStyle3 _ oldWarnImport _ rfl (by decide) (by rfl)
    litHdrFn hdrTailLits rfl ⟨by decide, by rfl⟩ (by rfl) (by rfl) (by rfl)
theorem dA_W_N : DiesOnAll ruleWarnImport.pat ruleNlRun :=
  diesOnAll_of_const _ _ replNlRun (fun _ => rfl) (by rfl)
theorem dB_W_N : BlockTailDead ruleWarnImport.pat ruleNlRun :=
  blockTailDead_of_const _ _ replNlRun (fun _ => rfl) (by rfl)
theorem dA_W_BC : DiesOnAll ruleWarnImport.pat ruleBodyCloneRun :=
  diesOnAll_of_const _ _ replBodyCloneRun (fun _ => rfl) (by rfl)
theorem dB_W_BC : BlockTailDead ruleWarnImport.pat ruleBodyCloneRun :=
  blockTailDead_of_const _ _ replBodyCloneRun (fun _ => rfl) (by rfl)
theorem dA_W_KG : DiesOnAll ruleWarnImport.pat ruleBlockMsg :=
  diesOnAll_of_const _ _ replBlockMsg (fun _ => rfl) (by rfl)
theorem dB_W_KG : BlockTailDead ruleWarnImport.pat ruleBlockMsg :=
  blockTailDead_of_const _ _ replBlockMsg (fun _ => rfl) (by rfl)
theorem dA_H_BC : DiesOnAll ruleHeader.pat ruleBodyCloneRun :=
  diesOnAll_of_const _ _ replBodyCloneRun (fun _ => rfl) (by rfl)
theorem dB_H_BC : BlockTailDead ruleHeader.pat ruleBodyCloneRun :=
  blockTailDead_of_const _ _ replBodyCloneRun (fun _ => rfl) (by rfl)
theorem dA_H_KG : DiesOnAll ruleHeader.pat ruleBlockMsg :=
  diesOnAll_of_const _ _ replBlockMsg (fun _ => rfl) (by rfl)
theorem dB_H_KG : BlockTailDead ruleHeader.pat ruleBlockMsg :=
  blockTailDead_of_const _ _ replBlockMsg (fun _ => rfl) (by rfl)
theorem dA_N_BC : DiesOnAll ruleNlRun.pat ruleBodyCloneRun :=
  diesOnAll_of_const _ _ replBodyCloneRun (fun _ => rfl) (by rfl)
theorem dB_N_BC : BlockTailDead ruleNlRun.pat ruleBodyCloneRun :=
  blockTailDead_of_const _ _ replBodyCloneRun (fun _ => rfl) (by rfl)
theorem dA_N_KG : DiesOnAll ruleNlRun.pat ruleBlockMsg :=
  diesOnAll_of_const _ _ replBlockMsg (fun _ => rfl) (by rfl)
theorem dB_N_KG : BlockTailDead ruleNlRun.pat ruleBlockMsg :=
  blockTailDead_of_const _ _ replBlockMsg (fun _ => rfl) (by rfl)
theorem dA_BC_BC : DiesOnAll ruleBodyCloneRun.pat ruleBodyCloneRun :=
  diesOnAll_of_const _ _ replBodyCloneRun (fun _ => rfl) (by rfl)
theorem dB_BC_BC : BlockTailDead ruleBodyCloneRun.pat ruleBodyCloneRun :=
  blockTailDead_of_const _ _ replBodyCloneRun (fun _ => rfl) (by rfl)
theorem dA_BC_KG : DiesOnAll ruleBodyCloneRun.pat ruleBlockMsg :=
  diesOnAll_of_const _ _ replBlockMsg (fun _ => rfl) (by rfl)
theorem dB_BC_KG : BlockTailDead ruleBodyCloneRun.pat ruleBlockMsg :=
  blockTailDead_of_const _ _ replBlockMsg (fun _ => rfl) (by rfl)
theorem dA_KG_KG : DiesOnAll ruleBlockMsg.pat ruleBlockMsg :=
  diesOnAll_of_const _ _ replBlockMsg (fun _ => rfl) (by rfl)
theorem dB_KG_KG : BlockTailDead ruleBlockMsg.pat ruleBlockMsg :=
  blockTailDead_of_const _ _ replBlockMsg (fun _ => rfl) (by rfl)
theorem dA_F_F : DiesOnAll ruleField.pat ruleField := by
  rw [ruleField_eq]
  exact diesOnAll_hdrStyle _ litFieldFn fldTailLits rfl (by decide) (by rfl) (by rfl)
theorem dB_F_F : BlockTailDead ruleField.pat ruleField := by
  rw [ruleField_eq]
  exact blockTailDead_hdrStyle3 _ litFieldFn _ rfl (by decide) (by rfl)
    litFieldFn fldTailLits rfl ⟨by decide, by rfl⟩ (by rfl) (by rfl) (by rfl)
theorem dA_F_T : DiesOnAll ruleField.pat ruleNoteTitle :=
  diesOnAll_of_const _ _ replNoteTitle (fun _ => rfl) (by rfl)
theorem dB_F_T : BlockTailDead ruleField.pat ruleNoteTitle :=
  blockTailDead_of_const _ _ replNoteTitle (fun _ => rfl) (by rfl)
theorem dA_F_NB : DiesOnAll ruleField.pat ruleNoteBody :=
  diesOnAll_of_const _ _ replNoteBody (fun _ => rfl) (by rfl)
theorem dB_F_NB : BlockTailDead ruleField.pat ruleNoteBody :=
  blockTailDead_of_const _ _ replNoteBody (fun _ => rfl) (by rfl)
theorem dA_F_KV : DiesOnAll ruleField.pat ruleBlockVcf :=
  diesOnAll_of_const _ _ replBlockVcf (fun _ => rfl) (by rfl)
theorem dB_F_KV : BlockTailDead ruleField.pat ruleBlockVcf :=
  blockTailDead_of_const _ _ replBlockVcf (fun _ => rfl) (by rfl)
theorem dA_F_FI : DiesOnAll ruleField.pat ruleFilter :=
  diesOnAll_of_const _ _ newFilter (fun _ => rfl) (by rfl)
theorem dB_F_FI : BlockTailDead ruleField.pat ruleFilter :=
  blockTailDead_of_const _ _ newFilter (fun _ => rfl) (by rfl)
theorem dA_T_T : DiesOnAll ruleNoteTitle.pat ruleNoteTitle :=
  diesOnAll_of_const _ _ replNoteTitle (fun _ => rfl) (by rfl)
theorem dB_T_T : BlockTailDead ruleNoteTitle.pat ruleNoteTitle :=
  blockTailDead_of_const _ _ replNoteTitle (fun _ => rfl) (by rfl)
theorem dA_T_NB : DiesOnAll ruleNoteTitle.pat ruleNoteBody :=
  diesOnAll_of_const _ _ replNoteBody (fun _ => rfl) (by rfl)
theorem dB_T_NB : BlockTailDead ruleNoteTitle.pat ruleNoteBody :=
  blockTailDead_of_const _ _ replNoteBody (fun _ => rfl) (by rfl)
theorem dA_T_KV : DiesOnAll ruleNoteTitle.pat ruleBlockVcf :=
  diesOnAll_of_const _ _ replBlockVcf (fun _ => rfl) (by rfl)
theorem dB_T_KV : BlockTailDead ruleNoteTitle.pat ruleBlockVcf :=
  blockTailDead_of_const _ _ replBlockVcf (fun _ => rfl) (by rfl)
theorem dA_T_FI : DiesOnAll ruleNoteTitle.pat ruleFilter :=
  diesOnAll_of_const _ _ newFilter (fun _ => rfl) (by rfl)
theorem dB_T_FI : BlockTailDead ruleNoteTitle.pat ruleFilter :=
  blockTailDead_of_const _ _ newFilter (fun _ => rfl) (by rfl)
theorem dA_NB_NB : DiesOnAll ruleNoteBody.pat ruleNoteBody :=
  diesOnAll_of_const _ _ replNoteBody (fun _ => rfl) (by rfl)
theorem dB_NB_NB : BlockTailDead ruleNoteBody.pat ruleNoteBody :=
  blockTailDead_of_const _ _ replNoteBody (fun _ => rfl) (by rfl)
theorem dA_NB_KV : DiesOnAll ruleNoteBody.pat ruleBlockVcf :=
  diesOnAll_of_const _ _ replBlockVcf (fun _ => rfl) (by rfl)
theorem dB_NB_KV : BlockTailDead ruleNoteBody.pat ruleBlockVcf :=
  blockTailDead_of_const _ _ replBlockVcf (fun _ => rfl) (by rfl)
theorem dA_NB_FI : DiesOnAll ruleNoteBody.pat ruleFilter :=
  diesOnAll_of_const _ _ newFilter (fun _ => rfl) (by rfl)
theorem dB_NB_FI : BlockTailDead ruleNoteBody.pat ruleFilter :=
  blockTailDead_of_const _ _ newFilter (fun _ => rfl) (by rfl)
theorem dA_KV_KV : DiesOnAll ruleBlockVcf.pat ruleBlockVcf :=
  diesOnAll_of_const _ _ replBlockVcf (fun _ => rfl) (by rfl)
theorem dB_KV_KV : BlockTailDead ruleBlockVcf.pat ruleBlockVcf :=
  blockTailDead_of_const _ _ replBlockVcf (fun _ => rfl) (by rfl)
theorem dA_KV_FI : DiesOnAll ruleBlockVcf.pat ruleFilter :=
  diesOnAll_of_const _ _ newFilter (fun _ => rfl) (by rfl)
theorem dB_KV_FI : BlockTailDead ruleBlockVcf.pat ruleFilter :=
  blockTailDead_of_const _ _ newFilter (fun _ => rfl) (by rfl)
theorem dA_FI_FI : DiesOnAll ruleFilter.pat ruleFilter :=
  diesOnAll_of_const _ _ newFilter (fun _ => rfl) (by rfl)
theorem dB_FI_FI : BlockTailDead ruleFilter.pat ruleFilter :=
  blockTailDead_of_const _ _ newFilter (fun _ => rfl) (by rfl)

/-! ### Pattern nonemptiness -/
theorem ne_H : ruleHeader.pat ≠ [] := by decide
theorem ne_N : ruleNlRun.pat ≠ [] := by decide
theorem ne_B : ruleBodyRun.pat ≠ [] := by decide
theorem ne_K : ruleBlockMbox.pat ≠ [] := by decide
theorem ne_A1 : ruleAddrAsRef.pat ≠ [] := by decide
theorem ne_A2 : ruleAddrClone.pat ≠ [] := by decide
theorem ne_W : ruleWarnImport.pat ≠ [] := by decide
theorem ne_BC : ruleBodyCloneRun.pat ≠ [] := by decide
theorem ne_KG : ruleBlockMsg.pat ≠ [] := by decide
theorem ne_F : ruleField.pat ≠ [] := by decide
theorem ne_T : ruleNoteTitle.pat ≠ [] := by decide
theorem ne_NB : ruleNoteBody.pat ≠ [] := by decide
theorem ne_KV : ruleBlockVcf.pat ≠ [] := by decide
theorem ne_FI : ruleFilter.pat ≠ [] := by decide

/-! ### Idempotence of `fix_mbox_text` -/
theorem clean_mbox_H (s : List Char) : NoMatchAt ruleHeader.pat (fix_mbox_text s) :=
  applyR_preserve_clean_all ruleAddrClone goodAddrClone _ wfHeader ne_H
      dA_H_A2 dB_H_A2
      (applyR_preserve_clean_all ruleAddrAsRef goodAddrAsRef _ wfHeader ne_H
      dA_H_A1 dB_H_A1
      (applyR_preserve_clean_all ruleBlockMbox goodBlockMbox _ wfHeader ne_H
      dA_H_K dB_H_K
      (applyR_preserve_clean_all ruleBodyRun goodBodyRun _ wfHeader ne_H
      dA_H_B dB_H_B
      (applyR_preserve_clean_all ruleNlRun goodNlRun _ wfHeader ne_H
      dA_H_N dB_H_N
      (applyR_clean_all ruleHeader goodHeader wfHeader dA_H_H dB_H_H s)))))
theorem clean_mbox_N (s : List Char) : NoMatchAt ruleNlRun.pat (fix_mbox_text s) :=
  applyR_preserve_clean_all ruleAddrClone goodAddrClone _ wfNlRun ne_N
      dA_N_A2 dB_N_A2
      (applyR_preserve_clean_all ruleAddrAsRef goodAddrAsRef _ wfNlRun ne_N
      dA_N_A1 dB_N_A1
      (applyR_preserve_clean_all ruleBlockMbox goodBlockMbox _ wfNlRun ne_N
      dA_N_K dB_N_K
      (applyR_preserve_clean_all ruleBodyRun goodBodyRun _ wfNlRun ne_N
      dA_N_B dB_N_B
      (applyR_clean_all ruleNlRun goodNlRun wfNlRun dA_N_N dB_N_N (applyR ruleHeader s)))))
theorem clean_mbox_B (s : List Char) : NoMatchAt ruleBodyRun.pat (fix_mbox_text s) :=
  applyR_preserve_clean_all ruleAddrClone goodAddrClone _ wfBodyRun ne_B
      dA_B_A2 dB_B_A2
      (applyR_preserve_clean_all ruleAddrAsRef goodAddrAsRef _ wfBodyRun ne_B
      dA_B_A1 dB_B_A1
      (applyR_preserve_clean_all ruleBlockMbox goodBlockMbox _ wfBodyRun ne_B
      dA_B_K dB_B_K
      (applyR_clean_all ruleBodyRun goodBodyRun wfBodyRun dA_B_B dB_B_B (applyR ruleNlRun (applyR ruleHeader s)))))
theorem clean_mbox_K (s : List Char) : NoMatchAt ruleBlockMbox.pat (fix_mbox_text s) :=
  applyR_preserve_clean_all ruleAddrClone goodAddrClone _ wfBlock ne_K
      dA_K_A2 dB_K_A2
      (applyR_preserve_clean_all ruleAddrAsRef goodAddrAsRef _ wfBlock ne_K
      dA_K_A1 dB_K_A1
      (applyR_clean_all ruleBlockMbox goodBlockMbox wfBlock dA_K_K dB_K_K (applyR ruleBodyRun (applyR ruleNlRun (applyR ruleHeader s)))))
theorem clean_mbox_A1 (s : List Char) : NoMatchAt ruleAddrAsRef.pat (fix_mbox_text s) :=
  applyR_preserve_clean_all ruleAddrClone goodAddrClone _ wfAddrAsRef ne_A1
      dA_A1_A2 dB_A1_A2
      (applyR_clean_all ruleAddrAsRef goodAddrAsRef wfAddrAsRef dA_A1_A1 dB_A1_A1 (applyR ruleBlockMbox (applyR ruleBodyRun (applyR ruleNlRun (applyR ruleHeader s)))))
theorem clean_mbox_A2 (s : List Char) : NoMatchAt ruleAddrClone.pat (fix_mbox_text s) :=
  applyR_clean_all ruleAddrClone goodAddrClone wfAddrClone dA_A2_A2 dB_A2_A2 (applyR ruleAddrAsRef (applyR ruleBlockMbox (applyR ruleBodyRun (applyR ruleNlRun (applyR ruleHeader s)))))
theorem fix_mbox_text_idem (s : List Char) : fix_mbox_text (fix_mbox_text s) = fix_mbox_text s := by
  have hu : fix_mbox_text (fix_mbox_text s) = applyR ruleAddrClone (applyR ruleAddrAsRef (applyR ruleBlockMbox (applyR ruleBodyRun (applyR ruleNlRun (applyR ruleHeader (fix_mbox_text s)))))) := rfl
  rw [hu, applyR_id_of_clean ruleHeader (clean_mbox_H s), applyR_id_of_clean ruleNlRun (clean_mbox_N s), applyR_id_of_clean ruleBodyRun (clean_mbox_B s), applyR_id_of_clean ruleBlockMbox (clean_mbox_K s), applyR_id_of_clean ruleAddrAsRef (clean_mbox_A1 s), applyR_id_of_clean ruleAddrClone (clean_mbox_A2 s)]

/-! ### Idempotence of `fix_msg_text` -/
theorem clean_msg_W (s : List Char) : NoMatchAt ruleWarnImport.pat (fix_msg_text s) :=
  applyR_preserve_clean_all ruleBlockMsg goodBlockMsg _ wfWarnImport ne_W
      dA_W_KG dB_W_KG
      (applyR_preserve_clean_all ruleBodyCloneRun goodBodyCloneRun _ wfWarnImport ne_W
      dA_W_BC dB_W_BC
      (applyR_preserve_clean_all ruleNlRun goodNlRun _ wfWarnImport ne_W
      dA_W_N dB_W_N
      (applyR_preserve_clean_all ruleHeader goodHeader _ wfWarnImport ne_W
      dA_W_H dB_W_H
      (applyR_clean_all ruleWarnImport goodWarnImport wfWarnImport dA_W_W dB_W_W s))))
theorem clean_msg_H (s : List Char) : NoMatchAt ruleHeader.pat (fix_msg_text s) :=
  applyR_preserve_clean_all ruleBlockMsg goodBlockMsg _ wfHeader ne_H
      dA_H_KG dB_H_KG
      (applyR_preserve_clean_all ruleBodyCloneRun goodBodyCloneRun _ wfHeader ne_H
      dA_H_BC dB_H_BC
      (applyR_preserve_clean_all ruleNlRun goodNlRun _ wfHeader ne_H
      dA_H_N dB_H_N
      (applyR_clean_all ruleHeader goodHeader wfHeader dA_H_H dB_H_H (applyR ruleWarnImport s))))
theorem clean_msg_N (s : List Char) : NoMatchAt ruleNlRun.pat (fix_msg_text s) :=
  applyR_preserve_clean_all ruleBlockMsg goodBlockMsg _ wfNlRun ne_N
      dA_N_KG dB_N_KG
      (applyR_preserve_clean_all ruleBodyCloneRun goodBodyCloneRun _ wfNlRun ne_N
      dA_N_BC dB_N_BC
      (applyR_clean_all ruleNlRun goodNlRun wfNlRun dA_N_N dB_N_N (applyR ruleHeader (applyR ruleWarnImport s))))
theorem clean_msg_BC (s : List Char) : NoMatchAt ruleBodyCloneRun.pat (fix_msg_text s) :=
  applyR_preserve_clean_all ruleBlockMsg goodBlockMsg _ wfBodyCloneRun ne_BC
      dA_BC_KG dB_BC_KG
      (applyR_clean_all ruleBodyCloneRun goodBodyCloneRun wfBodyCloneRun dA_BC_BC dB_BC_BC (applyR ruleNlRun (applyR ruleHeader (applyR ruleWarnImport s))))
theorem clean_msg_KG (s : List Char) : NoMatchAt ruleBlockMsg.pat (fix_msg_text s) :=
  applyR_clean_all ruleBlockMsg goodBlockMsg wfBlock dA_KG_KG dB_KG_KG (applyR ruleBodyCloneRun (applyR ruleNlRun (applyR ruleHeader (applyR ruleWarnImport s))))
theorem fix_msg_text_idem (s : List Char) : fix_msg_text (fix_msg_text s) = fix_msg_text s := by
  have hu : fix_msg_text (fix_msg_text s) = applyR ruleBlockMsg (applyR ruleBodyCloneRun (applyR ruleNlRun (applyR ruleHeader (applyR ruleWarnImport (fix_msg_text s))))) := rfl
  rw [hu, applyR_id_of_clean ruleWarnImport (clean_msg_W s), applyR_id_of_clean ruleHeader (clean_msg_H s), applyR_id_of_clean ruleNlRun (clean_msg_N s), applyR_id_of_clean ruleBodyCloneRun (clean_msg_BC s), applyR_id_of_clean ruleBlockMsg (clean_msg_KG s)]

/-! ### Idempotence of `fix_vcf_text` -/
theorem clean_vcf_F (s : List Char) : NoMatchAt ruleField.pat (fix_vcf_text s) :=
  applyR_preserve_clean_all ruleFilter goodFilter _ wfField ne_F
      dA_F_FI dB_F_FI
      (applyR_preserve_clean_all ruleBlockVcf goodBlockVcf _ wfField ne_F
      dA_F_KV dB_F_KV
      (applyR_preserve_clean_all ruleNoteBody goodNoteBody _ wfField ne_F
      dA_F_NB dB_F_NB
      (applyR_preserve_clean_all ruleNoteTitle goodNoteTitle _ wfField ne_F
      dA_F_T dB_F_T
      (applyR_clean_all ruleField goodField wfField dA_F_F dB_F_F s))))
theorem clean_vcf_T (s : List Char) : NoMatchAt ruleNoteTitle.pat (fix_vcf_text s) :=
  applyR_preserve_clean_all ruleFilter goodFilter _ wfNoteTitle ne_T
      dA_T_FI dB_T_FI
      (applyR_preserve_clean_all ruleBlockVcf goodBlockVcf _ wfNoteTitle ne_T
      dA_T_KV dB_T_KV
      (applyR_preserve_clean_all ruleNoteBody goodNoteBody _ wfNoteTitle ne_T
      dA_T_NB dB_T_NB
      (applyR_clean_all ruleNoteTitle goodNoteTitle wfNoteTitle dA_T_T dB_T_T (applyR ruleField s))))
theorem clean_vcf_NB (s : List Char) : NoMatchAt ruleNoteBody.pat (fix_vcf_text s) :=
  applyR_preserve_clean_all ruleFilter goodFilter _ wfNoteBody ne_NB
      dA_NB_FI dB_NB_FI
      (applyR_preserve_clean_all ruleBlockVcf goodBlockVcf _ wfNoteBody ne_NB
      dA_NB_KV dB_NB_KV
      (applyR_clean_all ruleNoteBody goodNoteBody wfNoteBody dA_NB_NB dB_NB_NB (applyR ruleNoteTitle (applyR ruleField s))))
theorem clean_vcf_KV (s : List Char) : NoMatchAt ruleBlockVcf.pat (fix_vcf_text s) :=
  applyR_preserve_clean_all ruleFilter goodFilter _ wfBlock ne_KV
      dA_KV_FI dB_KV_FI
      (applyR_clean_all ruleBlockVcf goodBlockVcf wfBlock dA_KV_KV dB_KV_KV (applyR ruleNoteBody (applyR ruleNoteTitle (applyR ruleField s))))
theorem clean_vcf_FI (s : List Char) : NoMatchAt ruleFilter.pat (fix_vcf_text s) :=
  applyR_clean_all ruleFilter goodFilter wfFilter dA_FI_FI dB_FI_FI (applyR ruleBlockVcf (applyR ruleNoteBody (applyR ruleNoteTitle (applyR ruleField s))))
theorem fix_vcf_text_idem (s : List Char) : fix_vcf_text (fix_vcf_text s) = fix_vcf_text s := by
  have hu : fix_vcf_text (fix_vcf_text s) = applyR ruleFilter (applyR ruleBlockVcf (applyR ruleNoteBody (applyR ruleNoteTitle (applyR ruleField (fix_vcf_text s))))) := rfl
  rw [hu, applyR_id_of_clean ruleField (clean_vcf_F s), applyR_id_of_clean ruleNoteTitle (clean_vcf_T s), applyR_id_of_clean ruleNoteBody (clean_vcf_NB s), applyR_id_of_clean ruleBlockVcf (clean_vcf_KV s), applyR_id_of_clean ruleFilter (clean_vcf_FI s)]

/-! ### Concrete inputs and auxiliary definitions for the claims -/

/-- The input text of the two-field `TextRun` scenario. -/
def c2Input : String :=
  "TextRun \x7b text: \"x\".to_string(), style: Default::default() \x7d"

/-- The output which that scenario is said to produce. -/
def c2Claimed : String :=
  "TextRun \x7b text: \"x\".to_string(), style: Default::default(), bounds: None, char_positions: None \x7d"

/-- A compact one-line statement matched by the newline-`TextRun` rule. -/
def nlCompact : List Char :=
  litPushTextRun ++ (str (" ") ++ (litTextNlString ++ (str (" ") ++
    (litStyleDefault ++ (str (" ") ++ litCloseParen)))))

/-- The segments of `ruleNlRun`'s match on `nlCompact`. -/
def nlSegs : List (List Char) :=
  [litPushTextRun, str (" "), litTextNlString, str (" "), litStyleDefault,
   str (" "), litCloseParen]

/-- The group-1 capture of the `format_email_header` rule at the head of a
text: everything the pattern matches up to and including `\x7d,` (the
renderer re-emits exactly this text via `\1`). -/
def captureHdr (s : List Char) : Option (List Char) :=
  (matchChunks ruleHeader.pat s).map (fun pr => (pr.1.take 13).flatten)

/-- The `format_email_header` construct in compact one-line layout. -/
def c5Compact : List Char :=
  litHdrFn ++ (str (" ") ++ (litTextRunBrace ++ (str (" ") ++
    (litFmtLabelValue ++ (str (" ") ++ (litStyleTextStyle ++ (str (" ") ++
    (litBoldHeader ++ (str (" ") ++ (litDotDotDefault ++ (str (" ") ++
    (litBraceComma ++ (str (" ") ++ litBrace)))))))))))))

/-- The same construct reformatted across lines with extra indentation. -/
def c5Multi : List Char :=
  litHdrFn ++ (str ("\n        ") ++ (litTextRunBrace ++ (str ("\n        ") ++
    (litFmtLabelValue ++ (str ("\n        ") ++ (litStyleTextStyle ++ (str ("\n        ") ++
    (litBoldHeader ++ (str ("\n        ") ++ (litDotDotDefault ++ (str ("\n        ") ++
    (litBraceComma ++ (str ("\n        ") ++ litBrace)))))))))))))

/-- Text before an occurrence, for the literal-edit scenario. -/
def c3A : List Char := str ("let s = ")

/-- Text after the occurrence (itself containing no occurrence). -/
def c3B : List Char := str (";\n")

/-- A text with no occurrence of the literal-edit pattern. -/
def c3S : List Char := str ("fn main() \x7b\x7d")

/-- A prefix in which no match of `ruleNlRun` starts. -/
def c6Pre : List Char := str ("xy ")

/-! ### A model of rule compilation, from the spec

The script has no separate rule-construction phase: each `re.sub` call
compiles its pattern at the moment it runs, inside the running pipeline.
The spec instead describes rules as built and validated once.  The
definitions below model the validation step the spec describes (modelled
from the spec: the code has no such phase) on top of the embedded rules,
placing the compilation where the script actually performs it: at each
rule's own application step. -/

/-- Modelled from the spec: a rule as written, before validation — a
diagnostic id, the pattern source text, and the transformation it denotes
when the source is well formed. -/
structure RawRule where
  id : String
  src : List Char
  compiled : Rule

/-- Group parentheses of a pattern source are balanced (the malformed-
pattern check of the model: an unmatched group anchor fails). -/
def balancedAux : List Char → Nat → Bool
  | [], d => d == 0
  | c :: cs, d =>
    if c = '(' then balancedAux cs (d + 1)
    else if c = ')' then
      match d with
      | 0 => false
      | d2 + 1 => balancedAux cs d2
    else balancedAux cs d

/-- Modelled from the spec: compiling a rule validates its pattern source
and yields the compiled rule, or a diagnostic naming the malformed rule. -/
def compileRule (r : RawRule) : Except String Rule :=
  if balancedAux r.src 0 then Except.ok r.compiled else Except.error r.id

/-- The pipeline as the script runs it: each step compiles its own pattern
at its own `re.sub` call and, if compilation succeeds, applies the rule to
the current text and continues.  Returns the ids of the rules that were
applied and either the final text or the compilation error. -/
def runPipeline : List RawRule → List Char → List String × Except String (List Char)
  | [], t => ([], Except.ok t)
  | r :: rs, t =>
    if balancedAux r.src 0 then
      ((r.id :: (runPipeline rs (applyR r.compiled t)).1),
       (runPipeline rs (applyR r.compiled t)).2)
    else ([], Except.error r.id)

/-- The newline-`TextRun` rule with a well-formed pattern source. -/
def rawNlRun : RawRule :=
  ⟨"fix TextRun creations with newlines", str ("text_runs.push(TextRun ...)"), ruleNlRun⟩

/-- A malformed rule: its pattern source has an unclosed group. -/
def rawMalformed : RawRule :=
  ⟨"malformed rule", str ("text_runs.push(TextRun ..."), ruleBodyRun⟩

/-! ### The I/O traces of the fix routines

Each routine opens its file and reads the whole text, transforms it in
memory, opens the file again and writes the complete transformed text, and
prints a status line — in exactly this order, transcribed from the source. -/

/-- A file-system or console event of the script. -/
inductive FsEvent where
  | read (path : String) (content : String)
  | write (path : String) (content : String)
  | print (msg : String)
deriving DecidableEq

/-- The file `fix_mbox` rewrites. -/
def mboxPath : String := "crates/prism-parsers/src/email/mbox.rs"

/-- The file `fix_msg` rewrites. -/
def msgPath : String := "crates/prism-parsers/src/email/msg.rs"

/-- The file `fix_vcf` rewrites. -/
def vcfPath : String := "crates/prism-parsers/src/email/vcf.rs"

/-- The event trace of `fix_mbox` when the file holds `content`. -/
def fix_mbox_events (content : String) : List FsEvent :=
  [FsEvent.read mboxPath content,
   FsEvent.write mboxPath (fix_mbox content),
   FsEvent.print ("Fixed mbox.rs")]

/-- The event trace of `fix_msg` when the file holds `content`. -/
def fix_msg_events (content : String) : List FsEvent :=
  [FsEvent.read msgPath content,
   FsEvent.write msgPath (fix_msg content),
   FsEvent.print ("Fixed msg.rs")]

/-- The event trace of `fix_vcf` when the file holds `content`. -/
def fix_vcf_events (content : String) : List FsEvent :=
  [FsEvent.read vcfPath content,
   FsEvent.write vcfPath (fix_vcf content),
   FsEvent.print ("Fixed vcf.rs")]

/-- The writes of an event trace, with their paths and contents. -/
def writesOf (evs : List FsEvent) : List (String × String) :=
  evs.filterMap (fun e =>
    match e with
    | FsEvent.write p c => some (p, c)
    | _ => none)

/-- A pattern of the shape `l₀ (\s+ lᵢ)*` matches the leading literal
followed by any interleaving of nonempty whitespace runs with its
remaining literals, consuming the whole text. -/
theorem matchChunks_litAlt_build (l0 : List Char) (lits wss : List (List Char))
    (hlen : wss.length = lits.length)
    (hlits : ∀ l ∈ lits, l ≠ [] ∧ isWsChar (l.headD 'a') = false)
    (hwss : ∀ w ∈ wss, WsRun w) :
    ∃ segs, matchChunks (Chunk.lit l0 :: AltChunks lits) (l0 ++ wsInter wss lits) =
      some (l0 :: segs, []) := by
  obtain ⟨segs, hm⟩ := matchChunks_altChunks_build lits wss hlen hlits hwss []
  rw [List.append_nil] at hm
  refine ⟨segs, ?_⟩
  have hpre : l0.isPrefixOf (l0 ++ wsInter wss lits) = true :=
    List.isPrefixOf_iff_prefix.mpr (List.prefix_append _ _)
  simp only [matchChunks]
  rw [if_pos hpre, List.drop_left, hm]
  rfl

/-- A nonempty run of whitespace characters, by computation. -/
theorem wsRun_of_all {w : List Char} (hne : w ≠ []) (h : w.all isWsChar = true) :
    WsRun w :=
  ⟨hne, fun c hc => List.all_eq_true.mp h c hc⟩

/-! ### The claims -/

/-- C1: Idempotence of the full pipeline.  For every input string `t`,
applying the pure text transformation of `fix_mbox` (its four regex rules
followed by its two literal edits, in listed order) twice yields the same
string as applying it once, and the same holds for the transformations of
`fix_msg` and `fix_vcf`. -/
theorem fix_pipelines_idempotent (t : String) :
    fix_mbox (fix_mbox t) = fix_mbox t ∧
    fix_msg (fix_msg t) = fix_msg t ∧
    fix_vcf (fix_vcf t) = fix_vcf t :=
  ⟨congrArg String.mk (fix_mbox_text_idem t.data),
   congrArg String.mk (fix_msg_text_idem t.data),
   congrArg String.mk (fix_vcf_text_idem t.data)⟩

/-- C2 (counterexample): the claimed scenario fails on the program as
written.  No rule of `fix_mbox` matches the bare two-field record
construction `TextRun \x7b text: "x".to_string(), style: Default::default() \x7d`:
every structural rule anchors on `text_runs.push(TextRun \x7b` (or another
anchor absent here) and requires the specific field text `"\n"` or
`body_text`, so the transformation returns the input unchanged rather than
inserting `bounds: None, char_positions: None`. -/
theorem twoField_textRun_unchanged :
    fix_mbox c2Input = c2Input ∧ fix_mbox c2Input ≠ c2Claimed :=
  ⟨by rfl, by decide⟩

/-- C2 (amended): the rule that inserts the two trailing fields is the
newline-`TextRun` rule: it matches the *pushed* statement form
`text_runs.push(TextRun \x7b text: "\n".to_string(), style: Default::default(), \x7d);`
and rewrites it to a fixed replacement that carries `bounds: None,` and
`char_positions: None,` before the closing of the construction. -/
theorem nlRun_inserts_fields :
    applyR ruleNlRun nlCompact = replNlRun ∧
    str ("bounds: None,") <:+: replNlRun ∧
    str ("char_positions: None,") <:+: replNlRun :=
  ⟨by rfl, by decide, by decide⟩

/-- C3: the literal edit for `addr.address.clone().unwrap_or_default()`.
If no occurrence starts inside `a`, the edit copies `a` unchanged, replaces
the occurrence after it with
`addr.address.as_ref().map(|a| a.to_string()).unwrap_or_default()`, counts
it, and continues on the rest — hence every exact, case-sensitive
occurrence is replaced and all text outside the occurrences is preserved —
and on a text with no occurrence it is the identity. -/
theorem addrClone_literal_edit (a b s : List Char)
    (ha : ∀ p, p < a.length → ¬ (oldAddrClone <+: (a ++ (oldAddrClone ++ b)).drop p))
    (hs : noOccur ruleAddrClone.pat s = true) :
    applyR ruleAddrClone (a ++ (oldAddrClone ++ b)) =
      a ++ (newAddr ++ applyR ruleAddrClone b) ∧
    countR ruleAddrClone (a ++ (oldAddrClone ++ b)) =
      countR ruleAddrClone b + 1 ∧
    applyR ruleAddrClone s = s := by
  have ha2 : ∀ p, p < a.length →
      matchChunks ruleAddrClone.pat ((a ++ (oldAddrClone ++ b)).drop p) = none :=
    fun p hp => matchChunks_lit_none_iff.mpr (ha p hp)
  have hm : matchChunks ruleAddrClone.pat (oldAddrClone ++ b) =
      some ([oldAddrClone], b) := matchChunks_lit_self _ _
  obtain ⟨h1, h2⟩ := applyR_scan ruleAddrClone goodAddrClone a (oldAddrClone ++ b)
    [oldAddrClone] b ha2 hm
  exact ⟨h1, h2, applyR_id_of_clean _ (noMatchAt_of_noOccur hs)⟩

/-- C3 at a concrete input: one occurrence framed by `let s = ` and `;`,
and an occurrence-free text returned unchanged. -/
theorem addrClone_literal_edit_witness :
    applyR ruleAddrClone (c3A ++ (oldAddrClone ++ c3B)) =
      c3A ++ (newAddr ++ applyR ruleAddrClone c3B) ∧
    countR ruleAddrClone (c3A ++ (oldAddrClone ++ c3B)) =
      countR ruleAddrClone c3B + 1 ∧
    applyR ruleAddrClone c3S = c3S :=
  addrClone_literal_edit c3A c3B c3S (by decide) (by rfl)

/-- C4: no-op safety.  A rule whose pattern occurs nowhere in a text
returns the text unchanged with a match count of 0, and a file text in
which no rule's pattern occurs comes back from each full transformation
byte-for-byte identical. -/
theorem noop_safety (r : Rule) (s : List Char) (hr : noOccur r.pat s = true)
    (t : String)
    (h1 : noOccur ruleHeader.pat t.data = true)
    (h2 : noOccur ruleNlRun.pat t.data = true)
    (h3 : noOccur ruleBodyRun.pat t.data = true)
    (h4 : noOccur blockPat t.data = true)
    (h5 : noOccur ruleAddrAsRef.pat t.data = true)
    (h6 : noOccur ruleAddrClone.pat t.data = true)
    (h7 : noOccur ruleField.pat t.data = true)
    (h8 : noOccur ruleNoteTitle.pat t.data = true)
    (h9 : noOccur ruleNoteBody.pat t.data = true)
    (h10 : noOccur ruleFilter.pat t.data = true)
    (h11 : noOccur ruleWarnImport.pat t.data = true)
    (h12 : noOccur ruleBodyCloneRun.pat t.data = true) :
    applyR r s = s ∧ countR r s = 0 ∧
    fix_mbox t = t ∧ fix_msg t = t ∧ fix_vcf t = t := by
  refine ⟨applyR_id_of_clean r (noMatchAt_of_noOccur hr),
    countR_zero_of_clean r (noMatchAt_of_noOccur hr), ?_, ?_, ?_⟩
  · have hx : fix_mbox_text t.data = t.data := by
      show applyR ruleAddrClone (applyR ruleAddrAsRef (applyR ruleBlockMbox
        (applyR ruleBodyRun (applyR ruleNlRun (applyR ruleHeader t.data))))) = t.data
      rw [applyR_id_of_clean ruleHeader (noMatchAt_of_noOccur h1),
          applyR_id_of_clean ruleNlRun (noMatchAt_of_noOccur h2),
          applyR_id_of_clean ruleBodyRun (noMatchAt_of_noOccur h3),
          applyR_id_of_clean ruleBlockMbox (noMatchAt_of_noOccur h4),
          applyR_id_of_clean ruleAddrAsRef (noMatchAt_of_noOccur h5),
          applyR_id_of_clean ruleAddrClone (noMatchAt_of_noOccur h6)]
    exact congrArg String.mk hx
  · have hx : fix_msg_text t.data = t.data := by
      show applyR ruleBlockMsg (applyR ruleBodyCloneRun (applyR ruleNlRun
        (applyR ruleHeader (applyR ruleWarnImport t.data)))) = t.data
      rw [applyR_id_of_clean ruleWarnImport (noMatchAt_of_noOccur h11),
          applyR_id_of_clean ruleHeader (noMatchAt_of_noOccur h1),
          applyR_id_of_clean ruleNlRun (noMatchAt_of_noOccur h2),
          applyR_id_of_clean ruleBodyCloneRun (noMatchAt_of_noOccur h12),
          applyR_id_of_clean ruleBlockMsg (noMatchAt_of_noOccur h4)]
    exact congrArg String.mk hx
  · have hx : fix_vcf_text t.data = t.data := by
      show applyR ruleFilter (applyR ruleBlockVcf (applyR ruleNoteBody
        (applyR ruleNoteTitle (applyR ruleField t.data)))) = t.data
      rw [applyR_id_of_clean ruleField (noMatchAt_of_noOccur h7),
          applyR_id_of_clean ruleNoteTitle (noMatchAt_of_noOccur h8),
          applyR_id_of_clean ruleNoteBody (noMatchAt_of_noOccur h9),
          applyR_id_of_clean ruleBlockVcf (noMatchAt_of_noOccur h4),
          applyR_id_of_clean ruleFilter (noMatchAt_of_noOccur h10)]
    exact congrArg String.mk hx

/-- C4 at a concrete input: a short text free of every pattern. -/
theorem noop_safety_witness :
    applyR ruleNlRun (str ("abc")) = str ("abc") ∧
    countR ruleNlRun (str ("abc")) = 0 ∧
    fix_mbox ("hello world") = ("hello world") ∧
    fix_msg ("hello world") = ("hello world") ∧
    fix_vcf ("hello world") = ("hello world") :=
  noop_safety ruleNlRun (str ("abc")) (by rfl) ("hello world") (by rfl) (by rfl)
    (by rfl) (by rfl) (by rfl) (by rfl) (by rfl) (by rfl) (by rfl) (by rfl)
    (by rfl) (by rfl)

/-- C5 (counterexample): the header pattern matches both the compact
one-line construct and the construct reformatted across lines, but it does
*not* produce the same captures: group 1 spans from the `fn` anchor through
`\x7d,` and contains the matched whitespace runs, so the two captures
differ. -/
theorem header_captures_differ :
    (captureHdr c5Compact).isSome = true ∧
    (captureHdr c5Multi).isSome = true ∧
    captureHdr c5Compact ≠ captureHdr c5Multi :=
  ⟨by rfl, by rfl, by decide⟩

/-- The literals after the lead anchor of the `format_email_header`
pattern. -/
def hdrWsLits : List (List Char) :=
  [litTextRunBrace, litFmtLabelValue, litStyleTextStyle, litBoldHeader,
   litDotDotDefault, litBraceComma, litBrace]

/-- The literals after the lead anchor of the `format_field` pattern. -/
def fldWsLits : List (List Char) :=
  [litTextRunBrace, litFmtLabelValue, litStyleTextStyle, litBoldComma,
   litDotDotDefault, litBraceComma, litBrace]

/-- The literals after the lead anchor of the newline-`TextRun` pattern. -/
def nlWsLits : List (List Char) := [litTextNlString, litStyleDefault, litCloseParen]

/-- The literals after the lead anchor of the body-text pattern (mbox). -/
def bodyWsLits : List (List Char) := [litTextBody, litStyleDefault, litCloseParen]

/-- The literals after the lead anchor of the body-text pattern (msg). -/
def bodyCloneWsLits : List (List Char) :=
  [litTextBodyClone, litStyleDefault, litCloseParen]

/-- The literals after the lead anchor of the note-title pattern. -/
def titleWsLits : List (List Char) :=
  [litNoteTitle, litStyleTextStyle, litBoldTrue, litDotDotDefault,
   litBraceComma, litCloseParen]

/-- The literals after the lead anchor of the note-content pattern. -/
def noteWsLits : List (List Char) := [litFmtNote, litStyleDefault, litCloseParen]

/-- The literals after the lead anchor of the `TextBlock` pattern. -/
def blockWsLits : List (List Char) := [litRunsTextRuns, litBoundsNone, litBraceSemi]

/-- A pattern of the shape `l₀ (\s+ lᵢ)*` matches under every interleaving
of nonempty whitespace runs. -/
theorem match_wsLayout (r : Rule) (l0 : List Char) (lits : List (List Char))
    (hpat : r.pat = Chunk.lit l0 :: AltChunks lits)
    (hlits : ∀ l ∈ lits, l ≠ [] ∧ isWsChar (l.headD 'a') = false)
    (wss : List (List Char)) (hlen : wss.length = lits.length)
    (hw : ∀ w ∈ wss, WsRun w) :
    (matchChunks r.pat (l0 ++ wsInter wss lits)).isSome = true := by
  obtain ⟨segs, hm⟩ := matchChunks_litAlt_build l0 lits wss hlen hlits hw
  rw [← hpat] at hm
  rw [hm]
  rfl

/-- A rule of that shape with a constant replacement rewrites every
whitespace layout of its construct to the same replacement. -/
theorem applyR_wsLayout (r : Rule) (hg : GoodRule r) (l0 : List Char)
    (lits : List (List Char)) (out : List Char)
    (hpat : r.pat = Chunk.lit l0 :: AltChunks lits)
    (hconst : ∀ segs, r.render segs = out)
    (hlits : ∀ l ∈ lits, l ≠ [] ∧ isWsChar (l.headD 'a') = false)
    (wss : List (List Char)) (hlen : wss.length = lits.length)
    (hw : ∀ w ∈ wss, WsRun w) :
    applyR r (l0 ++ wsInter wss lits) = out := by
  obtain ⟨segs, hm⟩ := matchChunks_litAlt_build l0 lits wss hlen hlits hw
  rw [← hpat] at hm
  rw [applyR_of_match_all r hg hm]
  exact hconst _

/-- Whitespace runs, certified elementwise by computation. -/
theorem wsRunAll_of_all {wss : List (List Char)}
    (h : ∀ w ∈ wss, w ≠ [] ∧ w.all isWsChar = true) :
    ∀ w ∈ wss, WsRun w :=
  fun w hw => ⟨(h w hw).1, fun c hc => List.all_eq_true.mp (h w hw).2 c hc⟩

/-- C5 (amended): whitespace tolerance of the match, for every structural
pattern of the script.  Each pattern consists of fixed anchors separated by
`\s+`, and matches its construct under every choice of nonempty whitespace
runs between the anchors: the header and field patterns match every layout
(their captures, however, contain the matched whitespace and hence depend
on the layout — see the counterexample), and each pattern with a fixed
replacement — the three `TextRun`-push patterns, the note-title and
note-content patterns, and the `TextBlock` pattern of all three routines —
rewrites every layout of its construct to the same replacement. -/
theorem whitespace_tolerance
    (wsH wsF wsN wsB wsC wsT wsD wsK : List (List Char))
    (hHl : wsH.length = 7) (hHw : ∀ w ∈ wsH, WsRun w)
    (hFl : wsF.length = 7) (hFw : ∀ w ∈ wsF, WsRun w)
    (hNl : wsN.length = 3) (hNw : ∀ w ∈ wsN, WsRun w)
    (hBl : wsB.length = 3) (hBw : ∀ w ∈ wsB, WsRun w)
    (hCl : wsC.length = 3) (hCw : ∀ w ∈ wsC, WsRun w)
    (hTl : wsT.length = 6) (hTw : ∀ w ∈ wsT, WsRun w)
    (hDl : wsD.length = 3) (hDw : ∀ w ∈ wsD, WsRun w)
    (hKl : wsK.length = 3) (hKw : ∀ w ∈ wsK, WsRun w) :
    (matchChunks ruleHeader.pat (litHdrFn ++ wsInter wsH hdrWsLits)).isSome = true ∧
    (matchChunks ruleField.pat (litFieldFn ++ wsInter wsF fldWsLits)).isSome = true ∧
    applyR ruleNlRun (litPushTextRun ++ wsInter wsN nlWsLits) = replNlRun ∧
    applyR ruleBodyRun (litPushTextRun ++ wsInter wsB bodyWsLits) = replBodyRun ∧
    applyR ruleBodyCloneRun (litPushTextRun ++ wsInter wsC bodyCloneWsLits) =
      replBodyCloneRun ∧
    applyR ruleNoteTitle (litPushTextRun ++ wsInter wsT titleWsLits) = replNoteTitle ∧
    applyR ruleNoteBody (litPushTextRun ++ wsInter wsD noteWsLits) = replNoteBody ∧
    applyR ruleBlockMbox (litLetTextBlock ++ wsInter wsK blockWsLits) = replBlockMbox ∧
    applyR ruleBlockMsg (litLetTextBlock ++ wsInter wsK blockWsLits) = replBlockMsg ∧
    applyR ruleBlockVcf (litLetTextBlock ++ wsInter wsK blockWsLits) = replBlockVcf := by
  refine ⟨?_, ?_, ?_, ?_, ?_, ?_, ?_, ?_, ?_, ?_⟩
  · exact match_wsLayout ruleHeader litHdrFn hdrWsLits rfl (by decide) wsH hHl hHw
  · exact match_wsLayout ruleField litFieldFn fldWsLits rfl (by decide) wsF hFl hFw
  · exact applyR_wsLayout ruleNlRun goodNlRun litPushTextRun nlWsLits replNlRun
      rfl (fun _ => rfl) (by decide) wsN hNl hNw
  · exact applyR_wsLayout ruleBodyRun goodBodyRun litPushTextRun bodyWsLits replBodyRun
      rfl (fun _ => rfl) (by decide) wsB hBl hBw
  · exact applyR_wsLayout ruleBodyCloneRun goodBodyCloneRun litPushTextRun
      bodyCloneWsLits replBodyCloneRun rfl (fun _ => rfl) (by decide) wsC hCl hCw
  · exact applyR_wsLayout ruleNoteTitle goodNoteTitle litPushTextRun titleWsLits
      replNoteTitle rfl (fun _ => rfl) (by decide) wsT hTl hTw
  · exact applyR_wsLayout ruleNoteBody goodNoteBody litPushTextRun noteWsLits
      replNoteBody rfl (fun _ => rfl) (by decide) wsD hDl hDw
  · exact applyR_wsLayout ruleBlockMbox goodBlockMbox litLetTextBlock blockWsLits
      replBlockMbox rfl (fun _ => rfl) (by decide) wsK hKl hKw
  · exact applyR_wsLayout ruleBlockMsg goodBlockMsg litLetTextBlock blockWsLits
      replBlockMsg rfl (fun _ => rfl) (by decide) wsK hKl hKw
  · exact applyR_wsLayout ruleBlockVcf goodBlockVcf litLetTextBlock blockWsLits
      replBlockVcf rfl (fun _ => rfl) (by decide) wsK hKl hKw

/-- Mixed whitespace runs: space, newline plus indentation, newline plus
tab. -/
def wsMix3 : List (List Char) := [str (" "), str ("\n    "), str ("\n\t")]

/-- Six mixed whitespace runs. -/
def wsMix6 : List (List Char) :=
  [str (" "), str ("\n  "), str (" "), str ("\n\t"), str (" "), str ("\n")]

/-- Seven mixed whitespace runs. -/
def wsMix7 : List (List Char) :=
  [str (" "), str ("\n  "), str (" "), str ("\n\t"), str (" "), str ("\n"),
   str ("  ")]

/-- C5 (amended) at concrete mixed whitespace runs for every structural
pattern. -/
theorem whitespace_tolerance_witness :
    (matchChunks ruleHeader.pat (litHdrFn ++ wsInter wsMix7 hdrWsLits)).isSome = true ∧
    (matchChunks ruleField.pat (litFieldFn ++ wsInter wsMix7 fldWsLits)).isSome = true ∧
    applyR ruleNlRun (litPushTextRun ++ wsInter wsMix3 nlWsLits) = replNlRun ∧
    applyR ruleBodyRun (litPushTextRun ++ wsInter wsMix3 bodyWsLits) = replBodyRun ∧
    applyR ruleBodyCloneRun (litPushTextRun ++ wsInter wsMix3 bodyCloneWsLits) =
      replBodyCloneRun ∧
    applyR ruleNoteTitle (litPushTextRun ++ wsInter wsMix6 titleWsLits) = replNoteTitle ∧
    applyR ruleNoteBody (litPushTextRun ++ wsInter wsMix3 noteWsLits) = replNoteBody ∧
    applyR ruleBlockMbox (litLetTextBlock ++ wsInter wsMix3 blockWsLits) = replBlockMbox ∧
    applyR ruleBlockMsg (litLetTextBlock ++ wsInter wsMix3 blockWsLits) = replBlockMsg ∧
    applyR ruleBlockVcf (litLetTextBlock ++ wsInter wsMix3 blockWsLits) = replBlockVcf :=
  whitespace_tolerance wsMix7 wsMix7 wsMix3 wsMix3 wsMix3 wsMix6 wsMix3 wsMix3
    (by rfl) (wsRunAll_of_all (by decide))
    (by rfl) (wsRunAll_of_all (by decide))
    (by rfl) (wsRunAll_of_all (by decide))
    (by rfl) (wsRunAll_of_all (by decide))
    (by rfl) (wsRunAll_of_all (by decide))
    (by rfl) (wsRunAll_of_all (by decide))
    (by rfl) (wsRunAll_of_all (by decide))
    (by rfl) (wsRunAll_of_all (by decide))

/-- C6: leftmost, non-overlapping matching.  If no match of the rule starts
inside the prefix `a` and one starts right after it, the scan keeps `a`,
replaces that leftmost match, and resumes after its end on `rest` — so a
later match is found and replaced independently, and no replacement is
re-scanned (matches never nest or overlap). -/
theorem leftmost_nonoverlapping_scan (r : Rule) (hg : GoodRule r)
    (a s2 rest : List Char) (segs : List (List Char))
    (ha : ∀ p, p < a.length → matchChunks r.pat ((a ++ s2).drop p) = none)
    (hm : matchChunks r.pat s2 = some (segs, rest)) :
    applyR r (a ++ s2) = a ++ (r.render segs ++ applyR r rest) ∧
    countR r (a ++ s2) = countR r rest + 1 :=
  applyR_scan r hg a s2 segs rest ha hm

/-- C6 at a concrete input: two adjacent matches of the newline-`TextRun`
rule after a short prefix; the first is replaced and the scan resumes
exactly at the second. -/
theorem leftmost_nonoverlapping_scan_witness :
    applyR ruleNlRun (c6Pre ++ (nlCompact ++ nlCompact)) =
      c6Pre ++ (replNlRun ++ applyR ruleNlRun nlCompact) ∧
    countR ruleNlRun (c6Pre ++ (nlCompact ++ nlCompact)) =
      countR ruleNlRun nlCompact + 1 :=
  leftmost_nonoverlapping_scan ruleNlRun goodNlRun c6Pre (nlCompact ++ nlCompact)
    nlCompact nlSegs (by decide) (by rfl)

/-- C7 (counterexample): there is no rule-construction phase before the
pipeline runs.  With a well-formed first rule and a malformed second rule,
the pipeline applies the first rule (its id is recorded and the text is
actually changed) and only then fails, at the malformed rule's own
application step — not before any rule is applied. -/
theorem malformed_rule_fails_at_apply_time :
    compileRule rawNlRun = Except.ok ruleNlRun ∧
    compileRule rawMalformed = Except.error rawMalformed.id ∧
    (runPipeline [rawNlRun, rawMalformed] nlCompact).1 = [rawNlRun.id] ∧
    (runPipeline [rawNlRun, rawMalformed] nlCompact).2 =
      Except.error rawMalformed.id ∧
    applyR ruleNlRun nlCompact ≠ nlCompact :=
  ⟨by rfl, by rfl, by rfl, by rfl, by decide⟩

/-- C7 (amended): compilation failures are detected at the malformed rule's
own application step.  If every rule before the malformed one is well
formed, the pipeline applies exactly those earlier rules, then stops with
the malformed rule's diagnostic: the malformed rule itself is never applied
and no later rule runs. -/
theorem malformed_rule_halts_pipeline :
    ∀ (rs : List RawRule) (b : RawRule) (rs2 : List RawRule) (t : List Char),
    (∀ r ∈ rs, balancedAux r.src 0 = true) →
    balancedAux b.src 0 = false →
    (runPipeline (rs ++ b :: rs2) t).1 = rs.map RawRule.id ∧
    (runPipeline (rs ++ b :: rs2) t).2 = Except.error b.id := by
  intro rs
  induction rs with
  | nil =>
    intro b rs2 t _ hbad
    constructor
    · simp [runPipeline, hbad]
    · simp [runPipeline, hbad]
  | cons r rtl ih =>
    intro b rs2 t hok hbad
    have hr : balancedAux r.src 0 = true := hok r (List.mem_cons_self _ _)
    have ih2 := ih b rs2 (applyR r.compiled t)
      (fun x hx => hok x (List.mem_cons_of_mem _ hx)) hbad
    constructor
    · simp only [List.cons_append]
      simp [runPipeline, hr, ih2.1]
    · simp only [List.cons_append]
      simp [runPipeline, hr, ih2.2]

/-- C7 (amended) at a concrete input: one well-formed rule before the
malformed one. -/
theorem malformed_rule_halts_pipeline_witness :
    (runPipeline [rawNlRun, rawMalformed] (str ("abc"))).1 =
      [rawNlRun].map RawRule.id ∧
    (runPipeline [rawNlRun, rawMalformed] (str ("abc"))).2 =
      Except.error rawMalformed.id :=
  malformed_rule_halts_pipeline [rawNlRun] rawMalformed [] (str ("abc"))
    (by decide) (by decide)

/-- C8: purity and determinism.  The transformation between the read and
the write is embedded as a pure function of the input text alone — its
type consumes nothing but the text, so it can neither read nor write
file-system state — and two runs on equal input texts produce equal output
texts. -/
theorem fix_deterministic (s t : String) (h : s = t) :
    fix_mbox s = fix_mbox t ∧ fix_msg s = fix_msg t ∧ fix_vcf s = fix_vcf t := by
  subst h
  exact ⟨rfl, rfl, rfl⟩

/-- C8 at a concrete input. -/
theorem fix_deterministic_witness :
    fix_mbox ("a") = fix_mbox ("a") ∧ fix_msg ("a") = fix_msg ("a") ∧
    fix_vcf ("a") = fix_vcf ("a") :=
  fix_deterministic ("a") ("a") rfl

/-- C9: atomicity with respect to writes.  In each routine's event trace
the only write is a single write of the fully transformed text (every rule
applied) to the routine's file: the complete output is computed in memory
before the write, so a failed write cannot leave a half-transformed file. -/
theorem fix_writes_complete_text (content : String) :
    writesOf (fix_mbox_events content) = [(mboxPath, fix_mbox content)] ∧
    writesOf (fix_msg_events content) = [(msgPath, fix_msg content)] ∧
    writesOf (fix_vcf_events content) = [(vcfPath, fix_vcf content)] :=
  ⟨rfl, rfl, rfl⟩

/-- C10: output invariant of `fix_mbox`.  The output of the transformation
contains no occurrence of either legacy address expression — the two
literal edits run last, remove every occurrence, and insert a replacement
in which neither expression occurs. -/
theorem fix_mbox_no_legacy_addr (s : String) :
    ¬ oldAddrAsRef <:+: (fix_mbox s).data ∧
    ¬ oldAddrClone <:+: (fix_mbox s).data :=
  ⟨not_infix_of_noMatchAt (clean_mbox_A1 s.data),
   not_infix_of_noMatchAt (clean_mbox_A2 s.data)⟩

end FixEmailParsers
